import Mathlib

/-!
Verification of the Chihuahua Toy Dash game (src/main.js).

Modelling conventions:
* JavaScript numbers are modelled exactly: every quantity the player logic
  touches is an integer (ℤ); the enemy moves by `speed = 1.2` per frame, so
  its coordinates are modelled as exact rationals (ℚ).  Floating-point
  rounding is outside the model.
* `Math.floor(a / TILE_SIZE)` on integers is `a / TILE_SIZE` with Lean's
  integer division (which rounds toward negative infinity, like
  `Math.floor`); on rationals it is `⌊q⌋`.
* `Math.round(a / TILE_SIZE) * TILE_SIZE` is `roundTile`.
* The JS `%` operator is only ever used in `x % TILE_SIZE === 0` tests;
  for integers this is `x % TILE_SIZE = 0` (both agree on the zero test),
  for rationals it is modelled by `jsMod`.
* DOM writes are dropped, except the overlay text written by
  `Game.endGame(win)`, which is recorded in the `endLog` field so that the
  calls to `endGame` stay observable.
* Fallible array indexing (`candidates[i]` possibly `undefined`, whose
  dereference would throw) is modelled with `Option`; `none` represents the
  thrown `TypeError`.
-/

/-! ### Constants and maze (src/main.js lines 9-36) -/

def TILE_SIZE : ℤ := 64

def ROWS : ℤ := 13

def COLS : ℤ := 15

def MAZE : List String :=
  ["111111111111111",
   "100000000000001",
   "101111011111101",
   "101000010000101",
   "101011111110101",
   "101010000010101",
   "101010111010101",
   "101010100010101",
   "101010101010101",
   "101000001000101",
   "101111011111101",
   "100000010000001",
   "111111111111111"]

/-- The character `MAZE[row][col]`, `none` when either index is out of range. -/
def mazeCell (row col : ℕ) : Option Char :=
  (MAZE.get? row).bind fun s => s.data.get? col

/-- `isWall(row, col)`: outside the maze boundaries is treated as a wall;
inside, a cell is a wall exactly when the maze character is '1'. -/
def isWall (row col : ℤ) : Bool :=
  if row < 0 ∨ ROWS ≤ row ∨ col < 0 ∨ COLS ≤ col then true
  else mazeCell row.toNat col.toNat == some '1'

/-- `Math.round(a / TILE_SIZE) * TILE_SIZE` for an integer `a`:
`Math.round` is floor of the argument plus one half. -/
def roundTile (a : ℤ) : ℤ := ((a + TILE_SIZE / 2) / TILE_SIZE) * TILE_SIZE

/-! ### Player (src/main.js lines 61-126) -/

structure Player where
  x : ℤ
  y : ℤ
  speed : ℤ
  /-- current moving direction, as the pair (x component, y component) -/
  direction : ℤ × ℤ
  /-- direction queued by arrow input -/
  nextDirection : ℤ × ℤ
  size : ℤ
deriving DecidableEq, Repr

/-- The `Player` constructor. -/
def mkPlayer (x y : ℤ) : Player :=
  { x := x, y := y, speed := 3, direction := (0, 0), nextDirection := (0, 0),
    size := TILE_SIZE }

/-- `Player.tryChangeDirection`: adopt the queued direction, but only when
tile-aligned and the queued direction's target cell is not a wall. -/
def Player.tryChangeDirection (p : Player) : Player :=
  if p.x % TILE_SIZE = 0 ∧ p.y % TILE_SIZE = 0 then
    let currentRow := p.y / TILE_SIZE
    let currentCol := p.x / TILE_SIZE
    let nextCol := currentCol + p.nextDirection.1
    let nextRow := currentRow + p.nextDirection.2
    if isWall nextRow nextCol = false then { p with direction := p.nextDirection }
    else p
  else p

/-- The horizontal collision block of `Player.update` (lines 92-105).
Input: the state `p` after `tryChangeDirection` and the tentative `newX`.
Output: the value of the local variable `newX` after the block together with
the state after the block (the JS mutates `this.x` — the transient snap —
and `this.direction.x` inside the block). -/
def Player.horizStep (p : Player) (newX : ℤ) : ℤ × Player :=
  if p.direction.1 ≠ 0 then
    let col := if 0 < p.direction.1 then (newX + p.size - 1) / TILE_SIZE
               else newX / TILE_SIZE
    let rowTop := p.y / TILE_SIZE
    let rowBottom := (p.y + p.size - 1) / TILE_SIZE
    if isWall rowTop col || isWall rowBottom col then
      (p.x, { p with x := roundTile p.x, direction := (0, p.direction.2) })
    else (newX, p)
  else (newX, p)

/-- The vertical collision block of `Player.update` (lines 107-118);
it reads `this.x`, which the horizontal block may have snapped. -/
def Player.vertStep (p : Player) (newY : ℤ) : ℤ × Player :=
  if p.direction.2 ≠ 0 then
    let row := if 0 < p.direction.2 then (newY + p.size - 1) / TILE_SIZE
               else newY / TILE_SIZE
    let colLeft := p.x / TILE_SIZE
    let colRight := (p.x + p.size - 1) / TILE_SIZE
    if isWall row colLeft || isWall row colRight then
      (p.y, { p with y := roundTile p.y, direction := (p.direction.1, 0) })
    else (newY, p)
  else (newY, p)

/-- The movement part of `Player.update` (lines 87-120): compute the
tentative position, run both collision blocks, then
`this.x = newX; this.y = newY` overwrites the positions with the (possibly
reverted) local variables — in particular any snap done inside
`horizStep`/`vertStep` is overwritten. -/
def Player.movePhase (p : Player) : Player :=
  let newX := p.x + p.direction.1 * p.speed
  let newY := p.y + p.direction.2 * p.speed
  let h := p.horizStep newX
  let v := h.2.vertStep newY
  { v.2 with x := h.1, y := v.1 }

/-- `Player.update`: try to turn, then move with per-axis collision. -/
def Player.update (p0 : Player) : Player :=
  p0.tryChangeDirection.movePhase

/-- The player starts at cell (1,1) (`Game.init`, line 250). -/
def playerStart : Player := mkPlayer (1 * TILE_SIZE) (1 * TILE_SIZE)

/-- The four unit vectors an arrow key can queue (`Game.setupControls`). -/
def arrowDirs : List (ℤ × ℤ) := [(0, -1), (0, 1), (-1, 0), (1, 0)]

/-- `window.onkeydown` (lines 302-316): an arrow key overwrites the player's
queued direction `nextDirection`; any other key leaves the player unchanged. -/
def handleKeydown (key : String) (p : Player) : Player :=
  if key = "ArrowUp" then { p with nextDirection := (0, -1) }
  else if key = "ArrowDown" then { p with nextDirection := (0, 1) }
  else if key = "ArrowLeft" then { p with nextDirection := (-1, 0) }
  else if key = "ArrowRight" then { p with nextDirection := (1, 0) }
  else p

/-- Player states reachable in a game session: the starting player, evolved
by arbitrary interleavings of keydown events and frame updates. -/
inductive PlayerReach : Player → Prop where
  | init : PlayerReach playerStart
  | key {p : Player} {d : ℤ × ℤ} : PlayerReach p → d ∈ arrowDirs →
      PlayerReach { p with nextDirection := d }
  | frame {p : Player} : PlayerReach p → PlayerReach p.update

/-- The five values the `direction` field can take in a session. -/
def dirOptions : List (ℤ × ℤ) := [(0, 0), (1, 0), (-1, 0), (0, 1), (0, -1)]

/-- Invariant carried by every reachable player state: speed and size are the
constructor constants, directions are axis unit vectors or zero, the axis a
motion component lives on has the other axis tile-aligned, and the four
corner cells of the 64×64 bounding box are walkable. -/
def PlayerInv (p : Player) : Prop :=
  p.speed = 3 ∧ p.size = TILE_SIZE ∧
  p.direction ∈ dirOptions ∧ p.nextDirection ∈ dirOptions ∧
  (p.direction.1 ≠ 0 → (64 : ℤ) ∣ p.y) ∧
  (p.direction.2 ≠ 0 → (64 : ℤ) ∣ p.x) ∧
  isWall (p.y / 64) (p.x / 64) = false ∧
  isWall (p.y / 64) ((p.x + 63) / 64) = false ∧
  isWall ((p.y + 63) / 64) (p.x / 64) = false ∧
  isWall ((p.y + 63) / 64) ((p.x + 63) / 64) = false

/-! ### Enemy (src/main.js lines 129-212) -/

structure Enemy where
  x : ℚ
  y : ℚ
  speed : ℚ
  /-- current moving direction, as the pair (x component, y component) -/
  direction : ℤ × ℤ
  size : ℚ
  /-- ms delay before the enemy begins chasing -/
  startDelay : ℤ
  spawnTimestamp : ℤ
deriving DecidableEq, Repr

/-- The `Enemy` constructor: `spawnTimestamp` is the `Date.now()` value at
construction time, passed in explicitly. -/
def mkEnemy (x y : ℚ) (now : ℤ) : Enemy :=
  { x := x, y := y, speed := 6 / 5, direction := (0, 0), size := (TILE_SIZE : ℚ),
    startDelay := 3000, spawnTimestamp := now }

/-- Truncating division result used by the JS `%` operator
(`a % b = a - b * trunc(a / b)`, with truncation toward zero). -/
def jsTrunc (q : ℚ) : ℤ := if 0 ≤ q then ⌊q⌋ else ⌈q⌉

/-- The JS `%` operator on rationals (only ever compared with 0). -/
def jsMod (a b : ℚ) : ℚ := a - b * jsTrunc (a / b)

/-- The fixed direction list of `Enemy.chooseDirection`, in source order. -/
def enemyDirs : List (ℤ × ℤ) := [(1, 0), (-1, 0), (0, 1), (0, -1)]

/-- The immediate-reversal test of `Enemy.chooseDirection`
(`this.direction.x === -dir.x && this.direction.y === -dir.y`). -/
def revDir (e : Enemy) (d : ℤ × ℤ) : Bool :=
  decide (e.direction.1 = -d.1 ∧ e.direction.2 = -d.2)

/-- `Enemy.chooseDirection`: returns the direction the method assigns to
`this.direction` (unchanged when not tile-aligned), or `none` when
`candidates` is empty or the random index falls outside it, in which case
the JS dereferences `undefined` and throws. The flag paired with each
direction is the `reverse` mark. -/
def Enemy.chooseDirection (r : ℚ) (e : Enemy) : Option (ℤ × ℤ) :=
  if ¬(jsMod e.x (TILE_SIZE : ℚ) = 0 ∧ jsMod e.y (TILE_SIZE : ℚ) = 0) then
    some e.direction
  else
    let row := ⌊e.y / (TILE_SIZE : ℚ)⌋
    let col := ⌊e.x / (TILE_SIZE : ℚ)⌋
    let possible := enemyDirs.filterMap fun dir =>
      if isWall (row + dir.2) (col + dir.1) = false then
        some (dir, revDir e dir)
      else none
    let filtered := possible.filter fun q => !q.2
    let candidates := if filtered.length = 0 then possible else filtered
    let idx := ⌊r * (candidates.length : ℚ)⌋
    if 0 ≤ idx then (candidates.get? idx.toNat).map (fun q => q.1) else none

/-- The horizontal collision block of `Enemy.update` (lines 182-192): on a
hit the whole direction is zeroed and, unlike the player's block, there is
no snap. Returns the local `newX` after the block and the mutated enemy. -/
def Enemy.horizStep (e : Enemy) (newX : ℚ) : ℚ × Enemy :=
  if e.direction.1 ≠ 0 then
    let col := if 0 < e.direction.1 then ⌊(newX + e.size - 1) / (TILE_SIZE : ℚ)⌋
               else ⌊newX / (TILE_SIZE : ℚ)⌋
    let rowTop := ⌊e.y / (TILE_SIZE : ℚ)⌋
    let rowBottom := ⌊(e.y + e.size - 1) / (TILE_SIZE : ℚ)⌋
    if isWall rowTop col || isWall rowBottom col then
      (e.x, { e with direction := (0, 0) })
    else (newX, e)
  else (newX, e)

/-- The vertical collision block of `Enemy.update` (lines 194-204). -/
def Enemy.vertStep (e : Enemy) (newY : ℚ) : ℚ × Enemy :=
  if e.direction.2 ≠ 0 then
    let row := if 0 < e.direction.2 then ⌊(newY + e.size - 1) / (TILE_SIZE : ℚ)⌋
               else ⌊newY / (TILE_SIZE : ℚ)⌋
    let colLeft := ⌊e.x / (TILE_SIZE : ℚ)⌋
    let colRight := ⌊(e.x + e.size - 1) / (TILE_SIZE : ℚ)⌋
    if isWall row colLeft || isWall row colRight then
      (e.y, { e with direction := (0, 0) })
    else (newY, e)
  else (newY, e)

/-- The movement part of `Enemy.update` (lines 179-206), on the state that
already carries the direction chosen by `chooseDirection`. -/
def Enemy.movePhase (e : Enemy) : Enemy :=
  let newX := e.x + (e.direction.1 : ℚ) * e.speed
  let newY := e.y + (e.direction.2 : ℚ) * e.speed
  let h := e.horizStep newX
  let v := h.2.vertStep newY
  { v.2 with x := h.1, y := v.1 }

/-- `Enemy.update`: wait out the spawn delay, choose a direction when at an
intersection (mutating `this.direction`), then move with per-axis collision.
`none` models the exception thrown when `chooseDirection` dereferences
`undefined`. The `player` argument of the JS method is unused and omitted. -/
def Enemy.update (now : ℤ) (r : ℚ) (e : Enemy) : Option Enemy :=
  if now - e.spawnTimestamp < e.startDelay then some e
  else
    match e.chooseDirection r with
    | none => none
    | some d => some (Enemy.movePhase { e with direction := d })

/-! ### Toys and game state (src/main.js lines 215-230, 233-352, 395-423) -/

inductive ToyType where
  | teddy : ToyType
  | ball : ToyType
deriving DecidableEq, Repr

structure Toy where
  row : ℤ
  col : ℤ
  size : ℤ
  collected : Bool
  type : ToyType
deriving DecidableEq, Repr

/-- The `Toy` constructor. -/
def mkToy (row col : ℤ) (type : ToyType) : Toy :=
  { row := row, col := col, size := TILE_SIZE, collected := false, type := type }

structure GameState where
  player : Player
  enemies : List Enemy
  toys : List Toy
  score : ℤ
  timeLeft : ℤ
  running : Bool
  /-- the `win` arguments of the `endGame` calls made so far, oldest first
  (instrumentation of the overlay DOM writes) -/
  endLog : List Bool
deriving DecidableEq, Repr

/-- `Game.endGame(win)`: stops the session and shows the overlay (recorded
in `endLog`). -/
def Game.endGame (win : Bool) (g : GameState) : GameState :=
  { g with running := false, endLog := g.endLog ++ [win] }

/-- `Game.checkCollision(a, b)` for the player / enemy pair it is called
with: axis-aligned bounding-box overlap. -/
def checkCollision (a : Player) (b : Enemy) : Bool :=
  decide ((a.x : ℚ) < b.x + b.size ∧ b.x < (a.x : ℚ) + (a.size : ℚ) ∧
    (a.y : ℚ) < b.y + b.size ∧ b.y < (a.y : ℚ) + (a.size : ℚ))

/-- The toy-collection `forEach` of `Game.update` (lines 333-343): `done` is
the already-traversed prefix (with its mutations), `rest` the remainder.
Returns the final toy list, the number of toys collected this pass (the
score increments), and whether the all-collected check fired (an
`endGame(true)` call). -/
def collectGo (playerRow playerCol : ℤ) (done rest : List Toy) : List Toy × ℕ × Bool :=
  match rest with
  | [] => (done, 0, false)
  | t :: ts =>
    if t.collected = false ∧ t.row = playerRow ∧ t.col = playerCol then
      let t1 : Toy := { t with collected := true }
      let fire := (done ++ t1 :: ts).all fun u => u.collected
      let k := collectGo playerRow playerCol (done ++ [t1]) ts
      (k.1, k.2.1 + 1, fire || k.2.2)
    else
      let k := collectGo playerRow playerCol (done ++ [t]) ts
      (k.1, k.2.1, k.2.2)

/-- The enemy `forEach` of `Game.update` (lines 345-351): updates each enemy
(the i-th with random draw `rs i`) and counts the collision checks that
succeed (each one an `endGame(false)` call). `none` propagates an enemy
update exception. -/
def enemyPass (now : ℤ) (rs : ℕ → ℚ) (player : Player) :
    ℕ → List Enemy → Option (List Enemy × ℕ)
  | _, [] => some ([], 0)
  | i, e :: es =>
    match e.update now (rs i) with
    | none => none
    | some e1 =>
      match enemyPass now rs player (i + 1) es with
      | none => none
      | some (es1, hits) =>
        some (e1 :: es1, (if checkCollision player e1 then 1 else 0) + hits)

/-- Iterated `endGame(false)` calls (one per colliding enemy). -/
def endGameFalseN : ℕ → GameState → GameState
  | 0, g => g
  | n + 1, g => endGameFalseN n (Game.endGame false g)

/-- `Game.update` (lines 327-352): update the player, run the toy-collection
pass (scoring and possibly `endGame(true)`), then the enemy pass (possibly
`endGame(false)` per overlap). The `dt` parameter of the JS method is unused
and omitted. -/
def Game.update (now : ℤ) (rs : ℕ → ℚ) (g : GameState) : Option GameState :=
  let player := g.player.update
  let playerRow := player.y / TILE_SIZE
  let playerCol := player.x / TILE_SIZE
  let c := collectGo playerRow playerCol [] g.toys
  let g1 : GameState := { g with player := player, toys := c.1, score := g.score + c.2.1 }
  let g2 := if c.2.2 then Game.endGame true g1 else g1
  match enemyPass now rs player 0 g.enemies with
  | none => none
  | some (es, hits) => some (endGameFalseN hits { g2 with enemies := es })

/-- The `setInterval` callback of `Game.init` (lines 288-295): when the
session is running, decrement the countdown and end the game on expiry. -/
def Game.timerTick (g : GameState) : GameState :=
  if g.running = false then g
  else if g.timeLeft - 1 ≤ 0 then Game.endGame false { g with timeLeft := g.timeLeft - 1 }
  else { g with timeLeft := g.timeLeft - 1 }

/-! ### Game.init (src/main.js lines 248-300) -/

/-- The `emptyCells` array of `Game.init`: all walkable cells except the
player start (1,1), in row-major order. -/
def emptyCells : List (ℤ × ℤ) :=
  (List.range 13).flatMap fun r => (List.range 15).filterMap fun c =>
    if isWall r c = false ∧ ¬(r = 1 ∧ c = 1) then some ((r : ℤ), (c : ℤ)) else none

/-- The destructuring swap `[a[i], a[j]] = [a[j], a[i]]`. -/
def listSwap {α : Type} (dflt : α) (l : List α) (i j : ℕ) : List α :=
  (l.set i (l.getD j dflt)).set j (l.getD i dflt)

/-- The Fisher–Yates loop of `Game.init` (lines 268-271): at loop index `i`
(counting down to 1) swap with index `⌊randᵢ · (i+1)⌋`. -/
def fyGo {α : Type} (rand : ℕ → ℚ) (dflt : α) : ℕ → List α → List α
  | 0, l => l
  | i + 1, l => fyGo rand dflt i (listSwap dflt l (i + 1) (⌊rand (i + 1) * ((i : ℚ) + 2)⌋).toNat)

/-- The shuffled `emptyCells` array. -/
def shuffledCells (rand : ℕ → ℚ) : List (ℤ × ℤ) :=
  fyGo rand (0, 0) (emptyCells.length - 1) emptyCells

def toyTypes : List ToyType := [ToyType.teddy, ToyType.ball]

/-- Toy creation loop (lines 272-278), with `i` the loop counter selecting
the alternating toy type. -/
def mkToys : ℕ → List (ℤ × ℤ) → List Toy
  | _, [] => []
  | i, c :: cs => mkToy c.1 c.2 (toyTypes.getD (i % 2) ToyType.teddy) :: mkToys (i + 1) cs

/-- The toys generated by `Game.init`: the first `min(10, emptyCells.length)`
cells of the shuffled array. -/
def initToys (rand : ℕ → ℚ) : List Toy :=
  let cells := shuffledCells rand
  mkToys 0 (cells.take (min 10 cells.length))

/-- `Game.init` at wall-clock time `now` with random stream `rand`. -/
def gameInit (now : ℤ) (rand : ℕ → ℚ) : GameState :=
  { player := playerStart,
    enemies := [mkEnemy (1 * (TILE_SIZE : ℚ)) (11 * (TILE_SIZE : ℚ)) now],
    toys := initToys rand,
    score := 0, timeLeft := 60, running := true, endLog := [] }

/-- Session states reachable from `Game.init`: closed under frames (with
random draws in [0,1)), timer ticks, and keydown events. -/
inductive GameReach : GameState → Prop where
  | init (now : ℤ) (rand : ℕ → ℚ) (hrand : ∀ i, 0 ≤ rand i ∧ rand i < 1) :
      GameReach (gameInit now rand)
  | frame {g g2 : GameState} (now : ℤ) (rs : ℕ → ℚ)
      (hrs : ∀ i, 0 ≤ rs i ∧ rs i < 1) :
      GameReach g → Game.update now rs g = some g2 → GameReach g2
  | tick {g : GameState} : GameReach g → GameReach (Game.timerTick g)
  | key {g : GameState} (k : String) : GameReach g →
      GameReach { g with player := handleKeydown k g.player }

/-- Number of collected toys. -/
def countCollected (l : List Toy) : ℕ := (l.filter fun t => t.collected).length

/-! ### Concrete trace states (for C4 and C5) -/

/-- The player with ArrowDown queued, before the first frame. -/
def playerDown : Player := { playerStart with nextDirection := (0, 1) }

/-- After 213 frames of holding ArrowDown: one sub-tile step short of the
wall below cell (11,1). -/
def pStuck213 : Player := Player.update^[213] playerDown

/-- One frame later: the downward move was blocked. -/
def pStuck214 : Player := Player.update^[214] playerDown

/-- The single enemy created by `Game.init` (line 255), at cell
(row 11, col 1), with spawn time 0. -/
def enemyStart : Enemy := mkEnemy (1 * (TILE_SIZE : ℚ)) (11 * (TILE_SIZE : ℚ)) 0

/-! ### Specification-side views of the pursuer policy (for C2 and C8):
the open neighbor directions of a cell and the candidate set the policy
draws from, defined directly over the maze. -/

/-- The open (non-wall) neighbor directions of cell (row, col), in the
source's direction order. -/
def openDirs (row col : ℤ) : List (ℤ × ℤ) :=
  enemyDirs.filter fun d => !isWall (row + d.2) (col + d.1)

/-- The non-reversing open neighbor directions. -/
def specCandidates (e : Enemy) (row col : ℤ) : List (ℤ × ℤ) :=
  (openDirs row col).filter fun d => !revDir e d

/-- The list the pursuer's random index actually draws from: the
non-reversing open directions, or all open directions when every open
direction reverses. -/
def effCandidates (e : Enemy) (row col : ℤ) : List (ℤ × ℤ) :=
  if (specCandidates e row col).length = 0 then openDirs row col
  else specCandidates e row col

/-! ### Specification-side view of the toy-collection pass (for C3, C7) -/

/-- Whether a toy is collectable this frame: uncollected and on the player's
cell (the condition of line 334). -/
def uncollAt (pr pc : ℤ) (t : Toy) : Bool :=
  decide (t.collected = false ∧ t.row = pr ∧ t.col = pc)

/-- The effect of the collection pass on one toy. -/
def collectMark (pr pc : ℤ) (t : Toy) : Toy :=
  if t.collected = false ∧ t.row = pr ∧ t.col = pc then { t with collected := true }
  else t

/-- A small running session used as a concrete witness for C3: one toy on
the player's starting cell, no enemies. -/
def demoGame : GameState :=
  { player := playerStart, enemies := [], toys := [mkToy 1 1 ToyType.teddy],
    score := 0, timeLeft := 60, running := true, endLog := [] }

/-- The state `Game.update` produces from `demoGame`: toy collected, score 1,
session won. -/
def demoGame2 : GameState :=
  { player := ⟨64, 64, 3, (0, 0), (0, 0), 64⟩, enemies := [],
    toys := [⟨1, 1, 64, true, ToyType.teddy⟩], score := 1, timeLeft := 60,
    running := false, endLog := [true] }

/-! ### First claim theorems: C6, C10 -/

/-- C6: out-of-bounds queries to `isWall` return `true` (they never reach the
string indexing, so no error is possible); in-bounds queries find an actual
maze character and return `true` exactly when that character is '1'. -/
theorem c6_iswall_bounds :
    (∀ row col : ℤ, (row < 0 ∨ 13 ≤ row ∨ col < 0 ∨ 15 ≤ col) →
      isWall row col = true) ∧
    (∀ row col : ℤ, 0 ≤ row → row < 13 → 0 ≤ col → col < 15 →
      (mazeCell row.toNat col.toNat).isSome = true ∧
      (isWall row col = true ↔ mazeCell row.toNat col.toNat = some '1')) := by
  constructor
  · intro row col h
    rw [isWall, if_pos]
    simpa [ROWS, COLS] using h
  · intro row col h0 h13 h0c h15c
    have hfin : ∀ i : Fin 13, ∀ j : Fin 15,
        (mazeCell i.1 j.1).isSome = true ∧
        ((mazeCell i.1 j.1 == some '1') = true ↔ mazeCell i.1 j.1 = some '1') := by
      decide
    have hr : row.toNat < 13 := by omega
    have hc : col.toNat < 15 := by omega
    have hmain := hfin ⟨row.toNat, hr⟩ ⟨col.toNat, hc⟩
    refine ⟨hmain.1, ?_⟩
    rw [isWall, if_neg (by simp [ROWS, COLS]; omega)]
    exact hmain.2

/-- C6 witness: a concrete out-of-bounds query and a concrete in-bounds
query. -/
theorem c6_iswall_bounds_witness :
    isWall (-1) 0 = true ∧
    ((mazeCell (1 : ℤ).toNat (1 : ℤ).toNat).isSome = true ∧
      (isWall 1 1 = true ↔ mazeCell (1 : ℤ).toNat (1 : ℤ).toNat = some '1')) :=
  ⟨c6_iswall_bounds.1 (-1) 0 (by norm_num),
   c6_iswall_bounds.2 1 1 (by norm_num) (by norm_num) (by norm_num) (by norm_num)⟩

/-- C10: each arrow key overwrites exactly the queued direction
`nextDirection` with the matching unit vector, leaving the position and the
current `direction` unchanged; every other key leaves the player unchanged. -/
theorem c10_keydown :
    (∀ p : Player, handleKeydown "ArrowUp" p = { p with nextDirection := (0, -1) }) ∧
    (∀ p : Player, handleKeydown "ArrowDown" p = { p with nextDirection := (0, 1) }) ∧
    (∀ p : Player, handleKeydown "ArrowLeft" p = { p with nextDirection := (-1, 0) }) ∧
    (∀ p : Player, handleKeydown "ArrowRight" p = { p with nextDirection := (1, 0) }) ∧
    (∀ key : String, ∀ p : Player,
      key ∉ (["ArrowUp", "ArrowDown", "ArrowLeft", "ArrowRight"] : List String) →
      handleKeydown key p = p) := by
  refine ⟨fun p => rfl, fun p => rfl, fun p => rfl, fun p => rfl, ?_⟩
  intro key p hk
  simp only [List.mem_cons, List.not_mem_nil, or_false, not_or] at hk
  obtain ⟨h1, h2, h3, h4⟩ := hk
  rw [handleKeydown, if_neg h1, if_neg h2, if_neg h3, if_neg h4]

/-- C10 witness: the non-arrow key "a" leaves a concrete player unchanged,
and "ArrowUp" queues (0,-1) on it. -/
theorem c10_keydown_witness :
    handleKeydown "a" playerStart = playerStart ∧
    handleKeydown "ArrowUp" playerStart = { playerStart with nextDirection := (0, -1) } :=
  ⟨c10_keydown.2.2.2.2 "a" playerStart (by decide), c10_keydown.1 playerStart⟩

/-! ### Player invariant lemmas -/

set_option maxRecDepth 1000000

theorem arrowDirs_sub_dirOptions : ∀ d ∈ arrowDirs, d ∈ dirOptions := by decide

theorem playerStart_inv : PlayerInv playerStart := by unfold PlayerInv; decide

theorem tryChange_fields (p : Player) :
    (p.tryChangeDirection).x = p.x ∧ (p.tryChangeDirection).y = p.y ∧
    (p.tryChangeDirection).speed = p.speed ∧ (p.tryChangeDirection).size = p.size ∧
    (p.tryChangeDirection).nextDirection = p.nextDirection := by
  rw [Player.tryChangeDirection]
  split
  · dsimp only
    split <;> exact ⟨rfl, rfl, rfl, rfl, rfl⟩
  · exact ⟨rfl, rfl, rfl, rfl, rfl⟩

theorem tryChange_direction (p : Player) :
    (p.tryChangeDirection).direction = p.direction ∨
    ((p.x % 64 = 0 ∧ p.y % 64 = 0) ∧
      (p.tryChangeDirection).direction = p.nextDirection ∧
      isWall (p.y / 64 + p.nextDirection.2) (p.x / 64 + p.nextDirection.1) = false) := by
  rw [Player.tryChangeDirection]
  split
  · rename_i hal
    rw [TILE_SIZE] at hal
    dsimp only
    split
    · rename_i hw
      exact Or.inr ⟨hal, rfl, by simpa [TILE_SIZE] using hw⟩
    · exact Or.inl rfl
  · exact Or.inl rfl

theorem tryChange_inv {p : Player} (hp : PlayerInv p) : PlayerInv p.tryChangeDirection := by
  obtain ⟨hsp, hsz, hdir, hnext, hay, hax, hb1, hb2, hb3, hb4⟩ := hp
  obtain ⟨fx, fy, fsp, fsz, fnx⟩ := tryChange_fields p
  rcases tryChange_direction p with hd | ⟨⟨halx, haly⟩, hd, _⟩ <;>
    refine ⟨by rw [fsp, hsp], by rw [fsz, hsz], ?_, by rw [fnx]; exact hnext, ?_, ?_,
      by rw [fx, fy]; exact hb1, by rw [fx, fy]; exact hb2,
      by rw [fx, fy]; exact hb3, by rw [fx, fy]; exact hb4⟩
  · rw [hd]; exact hdir
  · intro _; rw [fy]; exact hay (by rwa [hd] at *)
  · intro _; rw [fx]; exact hax (by rwa [hd] at *)
  · rw [hd]; exact hnext
  · intro _; rw [fy]; omega
  · intro _; rw [fx]; omega

theorem horizStep_zero (p : Player) (n : ℤ) (h : p.direction.1 = 0) :
    p.horizStep n = (n, p) := by
  rw [Player.horizStep, if_neg (by simp [h])]

theorem vertStep_zero (p : Player) (n : ℤ) (h : p.direction.2 = 0) :
    p.vertStep n = (n, p) := by
  rw [Player.vertStep, if_neg (by simp [h])]

theorem horizStep_right {p : Player} (hd : p.direction = (1, 0))
    (hsz : p.size = TILE_SIZE) (hy : (64 : ℤ) ∣ p.y) (n : ℤ) :
    p.horizStep n =
      (if isWall (p.y / 64) ((n + 63) / 64) = true
        then (p.x, { p with x := roundTile p.x, direction := (0, 0) })
        else (n, p)) := by
  rw [Player.horizStep, if_pos (show p.direction.1 ≠ 0 by rw [hd]; decide)]
  dsimp only
  rw [if_pos (show (0 : ℤ) < p.direction.1 by rw [hd]; decide), hsz]
  simp only [TILE_SIZE]
  have e1 : n + 64 - 1 = n + 63 := by ring
  have e2 : (p.y + 64 - 1) / 64 = p.y / 64 := by omega
  rw [e1, e2, Bool.or_self]
  by_cases hw : isWall (p.y / 64) ((n + 63) / 64) = true
  · rw [if_pos hw, if_pos hw, hd]
  · rw [if_neg hw, if_neg hw]

theorem horizStep_left {p : Player} (hd : p.direction = (-1, 0))
    (hsz : p.size = TILE_SIZE) (hy : (64 : ℤ) ∣ p.y) (n : ℤ) :
    p.horizStep n =
      (if isWall (p.y / 64) (n / 64) = true
        then (p.x, { p with x := roundTile p.x, direction := (0, 0) })
        else (n, p)) := by
  rw [Player.horizStep, if_pos (show p.direction.1 ≠ 0 by rw [hd]; decide)]
  dsimp only
  rw [if_neg (show ¬(0 : ℤ) < p.direction.1 by rw [hd]; decide), hsz]
  simp only [TILE_SIZE]
  have e2 : (p.y + 64 - 1) / 64 = p.y / 64 := by omega
  rw [e2, Bool.or_self]
  by_cases hw : isWall (p.y / 64) (n / 64) = true
  · rw [if_pos hw, if_pos hw, hd]
  · rw [if_neg hw, if_neg hw]

theorem vertStep_down {p : Player} (hd : p.direction = (0, 1))
    (hsz : p.size = TILE_SIZE) (hx : (64 : ℤ) ∣ p.x) (n : ℤ) :
    p.vertStep n =
      (if isWall ((n + 63) / 64) (p.x / 64) = true
        then (p.y, { p with y := roundTile p.y, direction := (0, 0) })
        else (n, p)) := by
  rw [Player.vertStep, if_pos (show p.direction.2 ≠ 0 by rw [hd]; decide)]
  dsimp only
  rw [if_pos (show (0 : ℤ) < p.direction.2 by rw [hd]; decide), hsz]
  simp only [TILE_SIZE]
  have e1 : n + 64 - 1 = n + 63 := by ring
  have e2 : (p.x + 64 - 1) / 64 = p.x / 64 := by omega
  rw [e1, e2, Bool.or_self]
  by_cases hw : isWall ((n + 63) / 64) (p.x / 64) = true
  · rw [if_pos hw, if_pos hw, hd]
  · rw [if_neg hw, if_neg hw]

theorem vertStep_up {p : Player} (hd : p.direction = (0, -1))
    (hsz : p.size = TILE_SIZE) (hx : (64 : ℤ) ∣ p.x) (n : ℤ) :
    p.vertStep n =
      (if isWall (n / 64) (p.x / 64) = true
        then (p.y, { p with y := roundTile p.y, direction := (0, 0) })
        else (n, p)) := by
  rw [Player.vertStep, if_pos (show p.direction.2 ≠ 0 by rw [hd]; decide)]
  dsimp only
  rw [if_neg (show ¬(0 : ℤ) < p.direction.2 by rw [hd]; decide), hsz]
  simp only [TILE_SIZE]
  have e2 : (p.x + 64 - 1) / 64 = p.x / 64 := by omega
  rw [e2, Bool.or_self]
  by_cases hw : isWall (n / 64) (p.x / 64) = true
  · rw [if_pos hw, if_pos hw, hd]
  · rw [if_neg hw, if_neg hw]

theorem movePhase_stop {p : Player} (hd : p.direction = (0, 0)) : p.movePhase = p := by
  rw [Player.movePhase]
  rw [horizStep_zero _ _ (by rw [hd])]
  dsimp only
  rw [vertStep_zero _ _ (by rw [hd])]
  dsimp only
  have ex : p.x + p.direction.1 * p.speed = p.x := by rw [hd]; ring
  have ey : p.y + p.direction.2 * p.speed = p.y := by rw [hd]; ring
  rw [ex, ey]

theorem movePhase_right {p : Player} (hd : p.direction = (1, 0)) (hsp : p.speed = 3)
    (hsz : p.size = TILE_SIZE) (hy : (64 : ℤ) ∣ p.y) :
    p.movePhase =
      if isWall (p.y / 64) ((p.x + 66) / 64) = true
        then { p with direction := (0, 0) }
        else { p with x := p.x + 3 } := by
  have hnx : p.x + p.direction.1 * p.speed = p.x + 3 := by rw [hd, hsp]; ring
  have hny : p.y + p.direction.2 * p.speed = p.y := by rw [hd, hsp]; ring
  rw [Player.movePhase]
  rw [hnx, hny, horizStep_right hd hsz hy]
  have e1 : p.x + 3 + 63 = p.x + 66 := by ring
  rw [e1]
  by_cases hw : isWall (p.y / 64) ((p.x + 66) / 64) = true
  · rw [if_pos hw, if_pos hw]
    dsimp only
    rw [vertStep_zero _ _ rfl]
  · rw [if_neg hw, if_neg hw]
    dsimp only
    rw [vertStep_zero _ _ (by rw [hd])]

theorem movePhase_left {p : Player} (hd : p.direction = (-1, 0)) (hsp : p.speed = 3)
    (hsz : p.size = TILE_SIZE) (hy : (64 : ℤ) ∣ p.y) :
    p.movePhase =
      if isWall (p.y / 64) ((p.x - 3) / 64) = true
        then { p with direction := (0, 0) }
        else { p with x := p.x - 3 } := by
  have hnx : p.x + p.direction.1 * p.speed = p.x - 3 := by rw [hd, hsp]; ring
  have hny : p.y + p.direction.2 * p.speed = p.y := by rw [hd, hsp]; ring
  rw [Player.movePhase]
  rw [hnx, hny, horizStep_left hd hsz hy]
  by_cases hw : isWall (p.y / 64) ((p.x - 3) / 64) = true
  · rw [if_pos hw, if_pos hw]
    dsimp only
    rw [vertStep_zero _ _ rfl]
  · rw [if_neg hw, if_neg hw]
    dsimp only
    rw [vertStep_zero _ _ (by rw [hd])]

theorem movePhase_down {p : Player} (hd : p.direction = (0, 1)) (hsp : p.speed = 3)
    (hsz : p.size = TILE_SIZE) (hx : (64 : ℤ) ∣ p.x) :
    p.movePhase =
      if isWall ((p.y + 66) / 64) (p.x / 64) = true
        then { p with direction := (0, 0) }
        else { p with y := p.y + 3 } := by
  have hnx : p.x + p.direction.1 * p.speed = p.x := by rw [hd, hsp]; ring
  have hny : p.y + p.direction.2 * p.speed = p.y + 3 := by rw [hd, hsp]; ring
  rw [Player.movePhase]
  rw [hnx, hny, horizStep_zero _ _ (by rw [hd])]
  dsimp only
  rw [vertStep_down hd hsz hx]
  have e1 : p.y + 3 + 63 = p.y + 66 := by ring
  rw [e1]
  by_cases hw : isWall ((p.y + 66) / 64) (p.x / 64) = true
  · rw [if_pos hw, if_pos hw]
  · rw [if_neg hw, if_neg hw]

theorem movePhase_up {p : Player} (hd : p.direction = (0, -1)) (hsp : p.speed = 3)
    (hsz : p.size = TILE_SIZE) (hx : (64 : ℤ) ∣ p.x) :
    p.movePhase =
      if isWall ((p.y - 3) / 64) (p.x / 64) = true
        then { p with direction := (0, 0) }
        else { p with y := p.y - 3 } := by
  have hnx : p.x + p.direction.1 * p.speed = p.x := by rw [hd, hsp]; ring
  have hny : p.y + p.direction.2 * p.speed = p.y - 3 := by rw [hd, hsp]; ring
  rw [Player.movePhase]
  rw [hnx, hny, horizStep_zero _ _ (by rw [hd])]
  dsimp only
  rw [vertStep_up hd hsz hx]
  by_cases hw : isWall ((p.y - 3) / 64) (p.x / 64) = true
  · rw [if_pos hw, if_pos hw]
  · rw [if_neg hw, if_neg hw]

theorem movePhase_inv {p : Player} (hp : PlayerInv p) : PlayerInv p.movePhase := by
  obtain ⟨hsp, hsz, hdir, hnext, hay, hax, hb1, hb2, hb3, hb4⟩ := hp
  have hdir5 : p.direction = (0, 0) ∨ p.direction = (1, 0) ∨ p.direction = (-1, 0) ∨
      p.direction = (0, 1) ∨ p.direction = (0, -1) := by
    simpa [dirOptions] using hdir
  have hzero : (0, 0) ∈ dirOptions := by simp [dirOptions]
  rcases hdir5 with hd | hd | hd | hd | hd
  · rw [movePhase_stop hd]
    exact ⟨hsp, hsz, hdir, hnext, hay, hax, hb1, hb2, hb3, hb4⟩
  · have hy : (64 : ℤ) ∣ p.y := hay (by rw [hd]; decide)
    have hrow : (p.y + 63) / 64 = p.y / 64 := by omega
    rw [movePhase_right hd hsp hsz hy]
    by_cases hw : isWall (p.y / 64) ((p.x + 66) / 64) = true
    · rw [if_pos hw]
      exact ⟨hsp, hsz, hzero, hnext, by intro h; exact absurd rfl h,
        by intro h; exact absurd rfl h, hb1, hb2, hb3, hb4⟩
    · rw [if_neg hw]
      have hw2 : isWall (p.y / 64) ((p.x + 66) / 64) = false := by
        cases hq : isWall (p.y / 64) ((p.x + 66) / 64) with
        | true => exact absurd hq hw
        | false => rfl
      have hsplit : (p.x + 3) / 64 = p.x / 64 ∨ (p.x + 3) / 64 = (p.x + 63) / 64 := by omega
      have e1 : p.x + 3 + 63 = p.x + 66 := by ring
      refine ⟨hsp, hsz, by rw [hd] at hdir ⊢; exact hdir, hnext,
        fun h => hay (by rwa [hd] at h ⊢), fun h => by rw [hd] at h; exact absurd rfl h,
        ?_, ?_, ?_, ?_⟩ <;> dsimp only
      · rcases hsplit with h | h <;> rw [h]
        · exact hb1
        · exact hb2
      · rw [e1]; exact hw2
      · rw [hrow]
        rcases hsplit with h | h <;> rw [h]
        · exact hb1
        · exact hb2
      · rw [hrow, e1]; exact hw2
  · have hy : (64 : ℤ) ∣ p.y := hay (by rw [hd]; decide)
    have hrow : (p.y + 63) / 64 = p.y / 64 := by omega
    rw [movePhase_left hd hsp hsz hy]
    by_cases hw : isWall (p.y / 64) ((p.x - 3) / 64) = true
    · rw [if_pos hw]
      exact ⟨hsp, hsz, hzero, hnext, by intro h; exact absurd rfl h,
        by intro h; exact absurd rfl h, hb1, hb2, hb3, hb4⟩
    · rw [if_neg hw]
      have hw2 : isWall (p.y / 64) ((p.x - 3) / 64) = false := by
        cases hq : isWall (p.y / 64) ((p.x - 3) / 64) with
        | true => exact absurd hq hw
        | false => rfl
      have hsplit : (p.x - 3 + 63) / 64 = p.x / 64 ∨ (p.x - 3 + 63) / 64 = (p.x + 63) / 64 := by
        omega
      refine ⟨hsp, hsz, by rw [hd] at hdir ⊢; exact hdir, hnext,
        fun h => hay (by rwa [hd] at h ⊢), fun h => by rw [hd] at h; exact absurd rfl h,
        ?_, ?_, ?_, ?_⟩ <;> dsimp only
      · exact hw2
      · rcases hsplit with h | h <;> rw [h]
        · exact hb1
        · exact hb2
      · rw [hrow]; exact hw2
      · rw [hrow]
        rcases hsplit with h | h <;> rw [h]
        · exact hb1
        · exact hb2
  · have hx : (64 : ℤ) ∣ p.x := hax (by rw [hd]; decide)
    have hcol : (p.x + 63) / 64 = p.x / 64 := by omega
    rw [movePhase_down hd hsp hsz hx]
    by_cases hw : isWall ((p.y + 66) / 64) (p.x / 64) = true
    · rw [if_pos hw]
      exact ⟨hsp, hsz, hzero, hnext, by intro h; exact absurd rfl h,
        by intro h; exact absurd rfl h, hb1, hb2, hb3, hb4⟩
    · rw [if_neg hw]
      have hw2 : isWall ((p.y + 66) / 64) (p.x / 64) = false := by
        cases hq : isWall ((p.y + 66) / 64) (p.x / 64) with
        | true => exact absurd hq hw
        | false => rfl
      have hsplit : (p.y + 3) / 64 = p.y / 64 ∨ (p.y + 3) / 64 = (p.y + 63) / 64 := by omega
      have e1 : p.y + 3 + 63 = p.y + 66 := by ring
      refine ⟨hsp, hsz, by rw [hd] at hdir ⊢; exact hdir, hnext,
        fun h => by rw [hd] at h; exact absurd rfl h, fun h => hax (by rwa [hd] at h ⊢),
        ?_, ?_, ?_, ?_⟩ <;> dsimp only
      · rcases hsplit with h | h <;> rw [h]
        · exact hb1
        · exact hb3
      · rw [hcol]
        rcases hsplit with h | h <;> rw [h]
        · exact hb1
        · exact hb3
      · rw [e1]; exact hw2
      · rw [hcol, e1]; exact hw2
  · have hx : (64 : ℤ) ∣ p.x := hax (by rw [hd]; decide)
    have hcol : (p.x + 63) / 64 = p.x / 64 := by omega
    rw [movePhase_up hd hsp hsz hx]
    by_cases hw : isWall ((p.y - 3) / 64) (p.x / 64) = true
    · rw [if_pos hw]
      exact ⟨hsp, hsz, hzero, hnext, by intro h; exact absurd rfl h,
        by intro h; exact absurd rfl h, hb1, hb2, hb3, hb4⟩
    · rw [if_neg hw]
      have hw2 : isWall ((p.y - 3) / 64) (p.x / 64) = false := by
        cases hq : isWall ((p.y - 3) / 64) (p.x / 64) with
        | true => exact absurd hq hw
        | false => rfl
      have hsplit : (p.y - 3 + 63) / 64 = p.y / 64 ∨ (p.y - 3 + 63) / 64 = (p.y + 63) / 64 := by
        omega
      refine ⟨hsp, hsz, by rw [hd] at hdir ⊢; exact hdir, hnext,
        fun h => by rw [hd] at h; exact absurd rfl h, fun h => hax (by rwa [hd] at h ⊢),
        ?_, ?_, ?_, ?_⟩ <;> dsimp only
      · exact hw2
      · rw [hcol]; exact hw2
      · rcases hsplit with h | h <;> rw [h]
        · exact hb1
        · exact hb3
      · rw [hcol]
        rcases hsplit with h | h <;> rw [h]
        · exact hb1
        · exact hb3

theorem update_inv {p : Player} (hp : PlayerInv p) : PlayerInv p.update :=
  movePhase_inv (tryChange_inv hp)

theorem keydown_inv {p : Player} (hp : PlayerInv p) (k : String) :
    PlayerInv (handleKeydown k p) := by
  obtain ⟨hsp, hsz, hdir, hnext, hay, hax, hb1, hb2, hb3, hb4⟩ := hp
  rw [handleKeydown]
  split
  · exact ⟨hsp, hsz, hdir, by simp [dirOptions], hay, hax, hb1, hb2, hb3, hb4⟩
  · split
    · exact ⟨hsp, hsz, hdir, by simp [dirOptions], hay, hax, hb1, hb2, hb3, hb4⟩
    · split
      · exact ⟨hsp, hsz, hdir, by simp [dirOptions], hay, hax, hb1, hb2, hb3, hb4⟩
      · split
        · exact ⟨hsp, hsz, hdir, by simp [dirOptions], hay, hax, hb1, hb2, hb3, hb4⟩
        · exact ⟨hsp, hsz, hdir, hnext, hay, hax, hb1, hb2, hb3, hb4⟩

theorem reach_inv {p : Player} (hp : PlayerReach p) : PlayerInv p := by
  induction hp with
  | init => exact playerStart_inv
  | key hr hm ih =>
    obtain ⟨hsp, hsz, hdir, hnext, hay, hax, hb1, hb2, hb3, hb4⟩ := ih
    exact ⟨hsp, hsz, hdir, arrowDirs_sub_dirOptions _ hm, hay, hax, hb1, hb2, hb3, hb4⟩
  | frame hr ih => exact update_inv ih

theorem reach_iterate {p : Player} (h : PlayerReach p) (n : ℕ) :
    PlayerReach (Player.update^[n] p) := by
  induction n with
  | zero => exact h
  | succ n ih =>
    rw [Function.iterate_succ_apply']
    exact PlayerReach.frame ih

/-- C1: from the tile-aligned start at cell (1,1), under arbitrary queued
directions, every tile overlapped by the player's 64×64 bounding box is
walkable (not a wall) in every reachable state. -/
theorem c1_player_in_walkable_cells {p : Player} (hp : PlayerReach p) :
    ∀ i j : ℤ, p.y / TILE_SIZE ≤ i → i ≤ (p.y + 63) / TILE_SIZE →
      p.x / TILE_SIZE ≤ j → j ≤ (p.x + 63) / TILE_SIZE →
      isWall i j = false := by
  obtain ⟨-, -, -, -, -, -, hb1, hb2, hb3, hb4⟩ := reach_inv hp
  intro i j hi1 hi2 hj1 hj2
  rw [TILE_SIZE] at hi1 hi2 hj1 hj2
  have hi : i = p.y / 64 ∨ i = (p.y + 63) / 64 := by omega
  have hj : j = p.x / 64 ∨ j = (p.x + 63) / 64 := by omega
  rcases hi with h | h <;> rcases hj with h2 | h2 <;> rw [h, h2]
  exacts [hb1, hb2, hb3, hb4]

/-- C1 witness: the starting state is reachable and its (single) overlapped
tile, cell (1,1), is walkable. -/
theorem c1_player_in_walkable_cells_witness : isWall 1 1 = false :=
  c1_player_in_walkable_cells PlayerReach.init 1 1 (by decide) (by decide)
    (by decide) (by decide)

theorem playerDown_reach : PlayerReach playerDown :=
  PlayerReach.key PlayerReach.init (by decide)

theorem playerDown_chunk128 :
    Player.update^[128] playerDown = ⟨64, 448, 3, (0, 1), (0, 1), 64⟩ := by decide

theorem pStuck213_eq : pStuck213 = ⟨64, 703, 3, (0, 1), (0, 1), 64⟩ := by
  rw [pStuck213, show (213 : ℕ) = 85 + 128 from by norm_num,
    Function.iterate_add_apply, playerDown_chunk128]
  decide

theorem pStuck214_eq : pStuck214 = ⟨64, 703, 3, (0, 0), (0, 1), 64⟩ := by
  rw [pStuck214, show (214 : ℕ) = 1 + 213 from by norm_num,
    Function.iterate_add_apply, ← pStuck213, pStuck213_eq]
  decide

theorem pStuck213_reach : PlayerReach pStuck213 := reach_iterate playerDown_reach 213

theorem update_pStuck213 : Player.update pStuck213 = ⟨64, 703, 3, (0, 0), (0, 1), 64⟩ := by
  have h : Player.update pStuck213 = pStuck214 := by
    rw [pStuck214, show (214 : ℕ) = 1 + 213 from by norm_num,
      Function.iterate_add_apply, ← pStuck213]
    rfl
  rw [h, pStuck214_eq]

/-- C4 counterexample: a reachable player state (213 frames of holding
ArrowDown from the start) whose next update changes `direction` from (0,1)
to (0,0) — the downward move is blocked by the wall below cell (11,1) —
while the position is not tile-aligned (y = 703) either before or after the
change. -/
theorem c4_counterexample :
    PlayerReach pStuck213 ∧
    (Player.update pStuck213).direction ≠ pStuck213.direction ∧
    ¬(pStuck213.x % TILE_SIZE = 0 ∧ pStuck213.y % TILE_SIZE = 0) ∧
    ¬((Player.update pStuck213).x % TILE_SIZE = 0 ∧
      (Player.update pStuck213).y % TILE_SIZE = 0) := by
  refine ⟨pStuck213_reach, ?_, ?_, ?_⟩
  · rw [update_pStuck213, pStuck213_eq]; decide
  · rw [pStuck213_eq]; decide
  · rw [update_pStuck213]; decide

theorem enemy_horizStep_snd (e : Enemy) (n : ℚ) :
    (e.horizStep n).2 = e ∨ (e.horizStep n).2 = { e with direction := (0, 0) } := by
  rw [Enemy.horizStep]
  split
  · dsimp only
    split <;> split
    · exact Or.inr rfl
    · exact Or.inl rfl
    · exact Or.inr rfl
    · exact Or.inl rfl
  · exact Or.inl rfl

theorem enemy_vertStep_snd (e : Enemy) (n : ℚ) :
    (e.vertStep n).2 = e ∨ (e.vertStep n).2 = { e with direction := (0, 0) } := by
  rw [Enemy.vertStep]
  split
  · dsimp only
    split <;> split
    · exact Or.inr rfl
    · exact Or.inl rfl
    · exact Or.inr rfl
    · exact Or.inl rfl
  · exact Or.inl rfl

theorem enemy_movePhase_direction (e : Enemy) :
    (Enemy.movePhase e).direction = e.direction ∨ (Enemy.movePhase e).direction = (0, 0) := by
  rw [Enemy.movePhase]
  dsimp only
  rcases enemy_horizStep_snd e (e.x + (e.direction.1 : ℚ) * e.speed) with h1 | h1 <;>
    rw [h1] <;>
    rcases enemy_vertStep_snd _ (e.y + (e.direction.2 : ℚ) * e.speed) with h2 | h2 <;>
    rw [h2]
  · exact Or.inl rfl
  · exact Or.inr rfl
  · exact Or.inr rfl
  · exact Or.inr rfl

/-- C4 (amended): direction changes to a new movement direction
(`tryChangeDirection` / `chooseDirection` assignments) happen only at
tile-aligned positions; but the wall-block handling can additionally zero
the direction at a misaligned position (the snap that would restore
alignment is discarded for the player and absent for the pursuer). -/
theorem c4_direction_changes_amended :
    (∀ p : Player, PlayerInv p → (Player.update p).direction ≠ p.direction →
      (p.x % TILE_SIZE = 0 ∧ p.y % TILE_SIZE = 0) ∨
      (Player.update p).direction = (0, 0)) ∧
    (∀ (e e2 : Enemy) (now : ℤ) (r : ℚ), Enemy.update now r e = some e2 →
      e2.direction ≠ e.direction →
      (jsMod e.x (TILE_SIZE : ℚ) = 0 ∧ jsMod e.y (TILE_SIZE : ℚ) = 0) ∨
      e2.direction = (0, 0)) := by
  constructor
  · intro p hp hneq
    rcases tryChange_direction p with hq | ⟨hal, -, -⟩
    · obtain ⟨hsp, hsz, hdir, -, hay, hax, -, -, -, -⟩ := tryChange_inv hp
      rw [Player.update] at hneq ⊢
      rw [hq] at hdir
      have hdir5 : p.direction = (0, 0) ∨ p.direction = (1, 0) ∨ p.direction = (-1, 0) ∨
          p.direction = (0, 1) ∨ p.direction = (0, -1) := by
        simpa [dirOptions] using hdir
      have hqd : p.tryChangeDirection.direction = p.direction := hq
      rcases hdir5 with hd | hd | hd | hd | hd
      · rw [movePhase_stop (by rw [hqd, hd])] at hneq
        exact absurd hqd hneq
      · have hy := hay (by rw [hqd, hd]; decide)
        rw [movePhase_right (by rw [hqd, hd]) hsp hsz hy] at hneq ⊢
        split at hneq
        · right
          rename_i hw
          rw [if_pos hw]
        · exact absurd hqd hneq
      · have hy := hay (by rw [hqd, hd]; decide)
        rw [movePhase_left (by rw [hqd, hd]) hsp hsz hy] at hneq ⊢
        split at hneq
        · right
          rename_i hw
          rw [if_pos hw]
        · exact absurd hqd hneq
      · have hx := hax (by rw [hqd, hd]; decide)
        rw [movePhase_down (by rw [hqd, hd]) hsp hsz hx] at hneq ⊢
        split at hneq
        · right
          rename_i hw
          rw [if_pos hw]
        · exact absurd hqd hneq
      · have hx := hax (by rw [hqd, hd]; decide)
        rw [movePhase_up (by rw [hqd, hd]) hsp hsz hx] at hneq ⊢
        split at hneq
        · right
          rename_i hw
          rw [if_pos hw]
        · exact absurd hqd hneq
    · left
      rw [TILE_SIZE]
      exact hal
  · intro e e2 now r hup hneq
    by_cases hal : jsMod e.x (TILE_SIZE : ℚ) = 0 ∧ jsMod e.y (TILE_SIZE : ℚ) = 0
    · exact Or.inl hal
    · right
      have hcd : e.chooseDirection r = some e.direction := by
        rw [Enemy.chooseDirection, if_pos hal]
      rw [Enemy.update] at hup
      by_cases hdel : now - e.spawnTimestamp < e.startDelay
      · rw [if_pos hdel] at hup
        injection hup with h2
        subst h2
        exact absurd rfl hneq
      · rw [if_neg hdel, hcd] at hup
        dsimp only at hup
        injection hup with h2
        subst h2
        rcases enemy_movePhase_direction { e with direction := e.direction } with h | h
        · exact absurd h hneq
        · exact h

/-- C5 (code bug evaluation): a reachable blocked step in which the vertical
movement is reverted and the direction component zeroed, but the final
position is NOT snapped to a tile multiple: the snap written inside the
collision block (`this.y = Math.round(this.y / TILE_SIZE) * TILE_SIZE`, with
the comment "Align to grid to avoid jitter") is overwritten by the trailing
`this.y = newY`, leaving y = 703. The player is then frozen forever, since
`tryChangeDirection` requires exact alignment. -/
theorem c5_blocked_axis_not_snapped :
    PlayerReach pStuck213 ∧
    pStuck213.direction = (0, 1) ∧
    pStuck213.y = 703 ∧
    (Player.update pStuck213).direction = (0, 0) ∧
    (Player.update pStuck213).y = pStuck213.y ∧
    ¬((Player.update pStuck213).y % TILE_SIZE = 0) ∧
    roundTile (Player.update pStuck213).y = 704 := by
  refine ⟨pStuck213_reach, ?_, ?_, ?_, ?_, ?_, ?_⟩
  · rw [pStuck213_eq]
  · rw [pStuck213_eq]
  · rw [update_pStuck213]
  · rw [update_pStuck213, pStuck213_eq]
  · rw [update_pStuck213]
    decide
  · rw [update_pStuck213]
    decide

/-! ### Pursuer policy lemmas (C2, C8) -/

theorem filterMap_open_eq (e : Enemy) (row col : ℤ) (l : List (ℤ × ℤ)) :
    (l.filterMap fun dir =>
        if isWall (row + dir.2) (col + dir.1) = false then some (dir, revDir e dir)
        else none)
      = (l.filter fun d => !isWall (row + d.2) (col + d.1)).map fun d => (d, revDir e d) := by
  induction l with
  | nil => rfl
  | cons a as ih =>
    cases hw : isWall (row + a.2) (col + a.1) <;>
      simp [List.filterMap_cons, List.filter_cons, hw, ih]

theorem filter_pairs_eq (e : Enemy) (l : List (ℤ × ℤ)) :
    ((l.map fun d => (d, revDir e d)).filter fun q => !q.2)
      = (l.filter fun d => !revDir e d).map fun d => (d, revDir e d) := by
  induction l with
  | nil => rfl
  | cons a as ih =>
    cases hr : revDir e a <;> simp [List.filter_cons, hr, ih]

theorem chooseDirection_aligned {e : Enemy} (r : ℚ)
    (hal : jsMod e.x (TILE_SIZE : ℚ) = 0 ∧ jsMod e.y (TILE_SIZE : ℚ) = 0) :
    e.chooseDirection r =
      (let cands := effCandidates e ⌊e.y / (TILE_SIZE : ℚ)⌋ ⌊e.x / (TILE_SIZE : ℚ)⌋
       let idx := ⌊r * (cands.length : ℚ)⌋
       if 0 ≤ idx then cands.get? idx.toNat else none) := by
  rw [Enemy.chooseDirection, if_neg (not_not_intro hal)]
  dsimp only
  rw [filterMap_open_eq e ⌊e.y / (TILE_SIZE : ℚ)⌋ ⌊e.x / (TILE_SIZE : ℚ)⌋ enemyDirs,
    ← openDirs, filter_pairs_eq, ← specCandidates]
  have hc : (if ((specCandidates e ⌊e.y / (TILE_SIZE : ℚ)⌋ ⌊e.x / (TILE_SIZE : ℚ)⌋).map
        fun d => (d, revDir e d)).length = 0
      then (openDirs ⌊e.y / (TILE_SIZE : ℚ)⌋ ⌊e.x / (TILE_SIZE : ℚ)⌋).map
        fun d => (d, revDir e d)
      else (specCandidates e ⌊e.y / (TILE_SIZE : ℚ)⌋ ⌊e.x / (TILE_SIZE : ℚ)⌋).map
        fun d => (d, revDir e d))
      = (effCandidates e ⌊e.y / (TILE_SIZE : ℚ)⌋ ⌊e.x / (TILE_SIZE : ℚ)⌋).map
        fun d => (d, revDir e d) := by
    rw [List.length_map, effCandidates]
    split <;> rfl
  rw [hc, List.length_map]
  set cands := effCandidates e ⌊e.y / (TILE_SIZE : ℚ)⌋ ⌊e.x / (TILE_SIZE : ℚ)⌋ with hcands
  by_cases hidx : 0 ≤ ⌊r * (cands.length : ℚ)⌋
  · rw [if_pos hidx, if_pos hidx, List.get?_map]
    cases h : cands.get? (⌊r * (cands.length : ℚ)⌋).toNat <;> simp [h]
  · rw [if_neg hidx, if_neg hidx]

theorem openDirs_nodup (row col : ℤ) : (openDirs row col).Nodup :=
  List.Nodup.filter _ (by decide)

theorem specCandidates_sub (e : Enemy) (row col : ℤ) :
    ∀ d ∈ specCandidates e row col, d ∈ openDirs row col := by
  intro d hd
  exact List.mem_of_mem_filter hd

theorem effCandidates_sub (e : Enemy) (row col : ℤ) :
    ∀ d ∈ effCandidates e row col, d ∈ openDirs row col := by
  intro d hd
  rw [effCandidates] at hd
  split at hd
  · exact hd
  · exact specCandidates_sub e row col d hd

theorem jsTrunc_intCast (k : ℤ) : jsTrunc (k : ℚ) = k := by
  rw [jsTrunc]
  split
  · exact Int.floor_intCast k
  · exact Int.ceil_intCast k

theorem tile_cast : ((TILE_SIZE : ℤ) : ℚ) = 64 := by
  rw [TILE_SIZE]
  norm_num

theorem jsMod_tile_mul (k : ℤ) : jsMod ((64 * k : ℤ) : ℚ) (TILE_SIZE : ℚ) = 0 := by
  have ha : (((64 * k : ℤ)) : ℚ) = 64 * (k : ℚ) := by push_cast; ring
  have hdiv : (64 : ℚ) * (k : ℚ) / 64 = (k : ℚ) := by field_simp
  rw [jsMod, tile_cast, ha, hdiv, jsTrunc_intCast]
  ring

theorem floor_div_tile_mul (k : ℤ) : ⌊(((64 * k : ℤ) : ℚ)) / (TILE_SIZE : ℚ)⌋ = k := by
  have ha : (((64 * k : ℤ)) : ℚ) = 64 * (k : ℚ) := by push_cast; ring
  have hdiv : (64 : ℚ) * (k : ℚ) / 64 = (k : ℚ) := by field_simp
  rw [tile_cast, ha, hdiv]
  exact Int.floor_intCast k

theorem enemyStart_x : enemyStart.x = ((64 * 1 : ℤ) : ℚ) := by
  show (1 : ℚ) * ((TILE_SIZE : ℤ) : ℚ) = _
  rw [tile_cast]
  norm_num

theorem enemyStart_y : enemyStart.y = ((64 * 11 : ℤ) : ℚ) := by
  show (11 : ℚ) * ((TILE_SIZE : ℤ) : ℚ) = _
  rw [tile_cast]
  norm_num

theorem enemyStart_alx : jsMod enemyStart.x (TILE_SIZE : ℚ) = 0 := by
  rw [enemyStart_x]
  exact jsMod_tile_mul 1

theorem enemyStart_aly : jsMod enemyStart.y (TILE_SIZE : ℚ) = 0 := by
  rw [enemyStart_y]
  exact jsMod_tile_mul 11

theorem enemyStart_col : ⌊enemyStart.x / (TILE_SIZE : ℚ)⌋ = 1 := by
  rw [enemyStart_x]
  exact floor_div_tile_mul 1

theorem enemyStart_row : ⌊enemyStart.y / (TILE_SIZE : ℚ)⌋ = 11 := by
  rw [enemyStart_y]
  exact floor_div_tile_mul 11

theorem enemyStart_choose : enemyStart.chooseDirection 0 = some (1, 0) := by
  rw [chooseDirection_aligned 0 ⟨enemyStart_alx, enemyStart_aly⟩]
  dsimp only
  rw [enemyStart_row, enemyStart_col,
    show effCandidates enemyStart 11 1 = [(1, 0), (0, -1)] from by decide]
  norm_num

theorem revDir_self (e : Enemy) : revDir e (-e.direction.1, -e.direction.2) = true := by
  simp [revDir]

theorem revDir_eq_rev {e : Enemy} {d : ℤ × ℤ} (h : revDir e d = true) :
    d = (-e.direction.1, -e.direction.2) := by
  rw [revDir, decide_eq_true_eq] at h
  obtain ⟨h1, h2⟩ := h
  obtain ⟨d1, d2⟩ := d
  simp only [Prod.mk.injEq]
  constructor <;> omega

theorem nodup_all_eq_singleton {α : Type} {l : List α} {d : α} (hn : l.Nodup)
    (hm : d ∈ l) (hall : ∀ x ∈ l, x = d) : l = [d] := by
  cases l with
  | nil => cases hm
  | cons a as =>
    have ha : a = d := hall a (List.mem_cons_self a as)
    subst ha
    cases as with
    | nil => rfl
    | cons b bs =>
      rw [List.nodup_cons] at hn
      have hb : b = a := hall b (by simp)
      exact absurd (by simp [hb]) hn.1

/-- C2: at a tile-aligned position, the direction `chooseDirection` assigns
is an open neighbor direction of the current cell; it equals the exact
reversal of the current direction only when the reversal is the only open
neighbor direction; and when non-reversing open directions exist, the list
the random index draws from is exactly the duplicate-free list of
non-reversing open directions, the index ⌊r·n⌋ picking the i-th entry
precisely when r·n lands in [i, i+1) — a uniform choice for uniform r. -/
theorem c2_pursuer_policy (e : Enemy) (r : ℚ) (d : ℤ × ℤ)
    (hx : jsMod e.x (TILE_SIZE : ℚ) = 0) (hy : jsMod e.y (TILE_SIZE : ℚ) = 0)
    (hsome : e.chooseDirection r = some d) :
    d ∈ openDirs ⌊e.y / (TILE_SIZE : ℚ)⌋ ⌊e.x / (TILE_SIZE : ℚ)⌋ ∧
    (d = (-e.direction.1, -e.direction.2) →
      openDirs ⌊e.y / (TILE_SIZE : ℚ)⌋ ⌊e.x / (TILE_SIZE : ℚ)⌋ = [d]) ∧
    (specCandidates e ⌊e.y / (TILE_SIZE : ℚ)⌋ ⌊e.x / (TILE_SIZE : ℚ)⌋ ≠ [] →
      effCandidates e ⌊e.y / (TILE_SIZE : ℚ)⌋ ⌊e.x / (TILE_SIZE : ℚ)⌋
        = specCandidates e ⌊e.y / (TILE_SIZE : ℚ)⌋ ⌊e.x / (TILE_SIZE : ℚ)⌋ ∧
      (specCandidates e ⌊e.y / (TILE_SIZE : ℚ)⌋ ⌊e.x / (TILE_SIZE : ℚ)⌋).Nodup ∧
      (∀ d2 : ℤ × ℤ,
        d2 ∈ specCandidates e ⌊e.y / (TILE_SIZE : ℚ)⌋ ⌊e.x / (TILE_SIZE : ℚ)⌋ ↔
        (d2 ∈ openDirs ⌊e.y / (TILE_SIZE : ℚ)⌋ ⌊e.x / (TILE_SIZE : ℚ)⌋ ∧
          revDir e d2 = false))) ∧
    (∀ i : ℕ,
      i < (effCandidates e ⌊e.y / (TILE_SIZE : ℚ)⌋ ⌊e.x / (TILE_SIZE : ℚ)⌋).length →
      ∀ r2 : ℚ,
      (i : ℚ) ≤ r2 *
        ((effCandidates e ⌊e.y / (TILE_SIZE : ℚ)⌋ ⌊e.x / (TILE_SIZE : ℚ)⌋).length : ℚ) →
      r2 * ((effCandidates e ⌊e.y / (TILE_SIZE : ℚ)⌋
          ⌊e.x / (TILE_SIZE : ℚ)⌋).length : ℚ) < (i : ℚ) + 1 →
      e.chooseDirection r2 =
        (effCandidates e ⌊e.y / (TILE_SIZE : ℚ)⌋ ⌊e.x / (TILE_SIZE : ℚ)⌋).get? i) := by
  have hmaster := chooseDirection_aligned r ⟨hx, hy⟩
  rw [hsome] at hmaster
  dsimp only at hmaster
  have hd : d ∈ effCandidates e ⌊e.y / (TILE_SIZE : ℚ)⌋ ⌊e.x / (TILE_SIZE : ℚ)⌋ := by
    by_cases hidx : 0 ≤ ⌊r * ((effCandidates e ⌊e.y / (TILE_SIZE : ℚ)⌋
        ⌊e.x / (TILE_SIZE : ℚ)⌋).length : ℚ)⌋
    · rw [if_pos hidx] at hmaster
      exact List.get?_mem hmaster.symm
    · rw [if_neg hidx] at hmaster
      cases hmaster
  refine ⟨effCandidates_sub _ _ _ d hd, ?_, ?_, ?_⟩
  · intro hrev
    by_cases hspec : specCandidates e ⌊e.y / (TILE_SIZE : ℚ)⌋ ⌊e.x / (TILE_SIZE : ℚ)⌋ = []
    · have hall : ∀ x ∈ openDirs ⌊e.y / (TILE_SIZE : ℚ)⌋ ⌊e.x / (TILE_SIZE : ℚ)⌋, x = d := by
        intro x hxm
        have : revDir e x = true := by
          by_contra hc
          have hxf : x ∈ specCandidates e ⌊e.y / (TILE_SIZE : ℚ)⌋ ⌊e.x / (TILE_SIZE : ℚ)⌋ := by
            rw [specCandidates, List.mem_filter]
            exact ⟨hxm, by simp [Bool.eq_false_iff.mpr hc]⟩
          rw [hspec] at hxf
          cases hxf
        rw [hrev]
        exact revDir_eq_rev this
      exact nodup_all_eq_singleton (openDirs_nodup _ _)
        (effCandidates_sub _ _ _ d hd) hall
    · have heff : effCandidates e ⌊e.y / (TILE_SIZE : ℚ)⌋ ⌊e.x / (TILE_SIZE : ℚ)⌋
          = specCandidates e ⌊e.y / (TILE_SIZE : ℚ)⌋ ⌊e.x / (TILE_SIZE : ℚ)⌋ := by
        rw [effCandidates, if_neg (by simpa [List.length_eq_zero] using hspec)]
      rw [heff] at hd
      rw [specCandidates, List.mem_filter] at hd
      have : revDir e d = true := by rw [hrev]; exact revDir_self e
      simp [this] at hd
  · intro hspec
    have heff : effCandidates e ⌊e.y / (TILE_SIZE : ℚ)⌋ ⌊e.x / (TILE_SIZE : ℚ)⌋
        = specCandidates e ⌊e.y / (TILE_SIZE : ℚ)⌋ ⌊e.x / (TILE_SIZE : ℚ)⌋ := by
      rw [effCandidates, if_neg (by simpa [List.length_eq_zero] using hspec)]
    refine ⟨heff, List.Nodup.filter _ (openDirs_nodup _ _), ?_⟩
    intro d2
    rw [specCandidates, List.mem_filter]
    constructor
    · rintro ⟨h1, h2⟩
      exact ⟨h1, by simpa using h2⟩
    · rintro ⟨h1, h2⟩
      exact ⟨h1, by simp [h2]⟩
  · intro i hi r2 h1 h2
    have hfloor : ⌊r2 * ((effCandidates e ⌊e.y / (TILE_SIZE : ℚ)⌋
        ⌊e.x / (TILE_SIZE : ℚ)⌋).length : ℚ)⌋ = (i : ℤ) := by
      rw [Int.floor_eq_iff]
      constructor
      · push_cast
        exact h1
      · push_cast
        exact h2
    rw [chooseDirection_aligned r2 ⟨hx, hy⟩]
    dsimp only
    rw [hfloor, if_pos (by positivity), Int.toNat_natCast]

/-- C2 witness: the freshly spawned pursuer at cell (11,1), aligned, with
random draw 0, is assigned (1,0) — an open neighbor direction. -/
theorem c2_pursuer_policy_witness :
    (1, 0) ∈ openDirs ⌊enemyStart.y / (TILE_SIZE : ℚ)⌋ ⌊enemyStart.x / (TILE_SIZE : ℚ)⌋ :=
  (c2_pursuer_policy enemyStart 0 (1, 0) enemyStart_alx enemyStart_aly
    enemyStart_choose).1

theorem isWall_false_bounds {row col : ℤ} (h : isWall row col = false) :
    0 ≤ row ∧ row < 13 ∧ 0 ≤ col ∧ col < 15 := by
  by_contra hc
  rw [isWall, if_pos (by rw [ROWS, COLS]; omega)] at h
  cases h

/-- C8: every walkable cell of the fixed maze has at least one walkable
orthogonal neighbor; hence for a tile-aligned pursuer on a walkable cell,
with the random draw in [0,1), `chooseDirection` finds a non-empty
candidate list, its random index is in bounds, and the dereference that
assigns the final direction cannot hit `undefined` (the result is `some`). -/
theorem c8_choose_direction_safe :
    (∀ row col : ℤ, isWall row col = false → openDirs row col ≠ []) ∧
    (∀ (e : Enemy) (r : ℚ), jsMod e.x (TILE_SIZE : ℚ) = 0 →
      jsMod e.y (TILE_SIZE : ℚ) = 0 →
      isWall ⌊e.y / (TILE_SIZE : ℚ)⌋ ⌊e.x / (TILE_SIZE : ℚ)⌋ = false →
      0 ≤ r → r < 1 → (e.chooseDirection r).isSome = true) := by
  have hpart1 : ∀ row col : ℤ, isWall row col = false → openDirs row col ≠ [] := by
    have hfin : ∀ (i : Fin 13) (j : Fin 15),
        isWall (i : ℕ) (j : ℕ) = false → openDirs (i : ℕ) (j : ℕ) ≠ [] := by decide
    intro row col h
    obtain ⟨h1, h2, h3, h4⟩ := isWall_false_bounds h
    have e1 : ((row.toNat : ℕ) : ℤ) = row := Int.toNat_of_nonneg h1
    have e2 : ((col.toNat : ℕ) : ℤ) = col := Int.toNat_of_nonneg h3
    have := hfin ⟨row.toNat, by omega⟩ ⟨col.toNat, by omega⟩
    rw [Fin.val_mk, Fin.val_mk, e1, e2] at this
    exact this h
  refine ⟨hpart1, ?_⟩
  intro e r hx hy hwalk hr0 hr1
  rw [chooseDirection_aligned r ⟨hx, hy⟩]
  dsimp only
  have hopen := hpart1 _ _ hwalk
  have hne : effCandidates e ⌊e.y / (TILE_SIZE : ℚ)⌋ ⌊e.x / (TILE_SIZE : ℚ)⌋ ≠ [] := by
    rw [effCandidates]
    split
    · exact hopen
    · rename_i hlen
      rwa [Ne, ← List.length_eq_zero]
  have hpos : 0 < (effCandidates e ⌊e.y / (TILE_SIZE : ℚ)⌋
      ⌊e.x / (TILE_SIZE : ℚ)⌋).length := List.length_pos.mpr hne
  set n := (effCandidates e ⌊e.y / (TILE_SIZE : ℚ)⌋ ⌊e.x / (TILE_SIZE : ℚ)⌋).length with hn
  have hge : 0 ≤ ⌊r * (n : ℚ)⌋ := by
    rw [Int.le_floor]
    push_cast
    positivity
  have hlt : ⌊r * (n : ℚ)⌋ < (n : ℤ) := by
    rw [Int.floor_lt]
    push_cast
    calc r * (n : ℚ) < 1 * (n : ℚ) := by
          apply mul_lt_mul_of_pos_right hr1
          exact_mod_cast hpos
      _ = (n : ℚ) := one_mul _
  rw [if_pos hge]
  have hlt2 : (⌊r * (n : ℚ)⌋).toNat < n := by omega
  rw [List.get?_eq_get hlt2]
  rfl

/-- C8 witness: cell (11,1) is walkable with an open neighbor, and the
spawned pursuer's first aligned `chooseDirection` with draw 0 returns a
direction (no `undefined` dereference). -/
theorem c8_choose_direction_safe_witness :
    openDirs 11 1 ≠ [] ∧ (enemyStart.chooseDirection 0).isSome = true :=
  ⟨c8_choose_direction_safe.1 11 1 (by decide),
   c8_choose_direction_safe.2 enemyStart 0 enemyStart_alx enemyStart_aly
     (by rw [enemyStart_row, enemyStart_col]; decide) (by norm_num) (by norm_num)⟩

theorem floorQ_eval (q : ℚ) (k : ℤ) (h1 : (k : ℚ) ≤ q) (h2 : q < (k : ℚ) + 1) : ⌊q⌋ = k :=
  Int.floor_eq_iff.mpr ⟨h1, h2⟩

theorem eS_x64 : enemyStart.x = 64 := by
  rw [enemyStart_x]
  norm_num

theorem eS_y704 : enemyStart.y = 704 := by
  rw [enemyStart_y]
  norm_num

theorem eS_size : enemyStart.size = 64 := by
  show ((TILE_SIZE : ℤ) : ℚ) = 64
  exact tile_cast

theorem enemyStart_move_eval :
    Enemy.movePhase { enemyStart with direction := (1, 0) }
      = { enemyStart with direction := (1, 0), x := 326 / 5 } := by
  rw [Enemy.movePhase, Enemy.horizStep, Enemy.vertStep]
  dsimp only
  rw [eS_x64, eS_y704, eS_size, show enemyStart.speed = 6 / 5 from rfl, tile_cast]
  rw [show ((64 : ℚ) + ↑(1 : ℤ) * (6 / 5) + 64 - 1) / 64 = 2 + 1 / 320 from by push_cast; ring]
  rw [show ⌊(2 + 1 / 320 : ℚ)⌋ = 2 from floorQ_eval _ 2 (by norm_num) (by norm_num)]
  norm_num [show isWall 11 2 = false from by decide]

/-- C4 (amended) witness: the player turning downward at the aligned start
(its direction change is at an aligned position), and the pursuer's first
post-delay update from its aligned spawn cell (its direction change is at an
aligned position as well). -/
theorem c4_direction_changes_amended_witness :
    ((playerDown.x % TILE_SIZE = 0 ∧ playerDown.y % TILE_SIZE = 0) ∨
      (Player.update playerDown).direction = (0, 0)) ∧
    ((jsMod enemyStart.x (TILE_SIZE : ℚ) = 0 ∧ jsMod enemyStart.y (TILE_SIZE : ℚ) = 0) ∨
      (Enemy.movePhase { enemyStart with direction := (1, 0) }).direction = (0, 0)) := by
  constructor
  · exact c4_direction_changes_amended.1 playerDown (by unfold PlayerInv; decide) (by decide)
  · exact c4_direction_changes_amended.2 enemyStart
      (Enemy.movePhase { enemyStart with direction := (1, 0) }) 3000 0
      (by rw [Enemy.update, if_neg (by decide), enemyStart_choose])
      (by rw [enemyStart_move_eval]; decide)

/-! ### Toy-collection pass lemmas (C3, C7) -/

theorem collectMark_id {pr pc : ℤ} {t : Toy} (h : uncollAt pr pc t = false) :
    collectMark pr pc t = t := by
  rw [collectMark, if_neg]
  rw [uncollAt] at h
  exact of_decide_eq_false h

theorem collectMark_of_uncollAt {pr pc : ℤ} {t : Toy} (h : uncollAt pr pc t = true) :
    collectMark pr pc t = { t with collected := true } := by
  rw [collectMark, if_pos]
  rw [uncollAt] at h
  exact of_decide_eq_true h

theorem collectMark_collected_of {pr pc : ℤ} {t : Toy} (h : t.collected = true) :
    collectMark pr pc t = t := by
  apply collectMark_id
  rw [uncollAt]
  simp [h]

theorem append_singleton_cons {α : Type} (done : List α) (a : α) (l : List α) :
    (done ++ [a]) ++ l = done ++ a :: l := by simp

theorem collectGo_spec (pr pc : ℤ) : ∀ (rest done : List Toy),
    (collectGo pr pc done rest).1 = done ++ rest.map (collectMark pr pc) ∧
    (collectGo pr pc done rest).2.1 = (rest.filter (uncollAt pr pc)).length ∧
    ((collectGo pr pc done rest).2.2 = true ↔
      ((∃ t ∈ rest, uncollAt pr pc t = true) ∧
        ∀ u ∈ done ++ rest.map (collectMark pr pc), u.collected = true)) := by
  intro rest
  induction rest with
  | nil =>
    intro done
    refine ⟨by simp [collectGo], by simp [collectGo], ?_⟩
    rw [collectGo]
    simp
  | cons t ts ih =>
    intro done
    rw [collectGo]
    by_cases hc : t.collected = false ∧ t.row = pr ∧ t.col = pc
    · have huc : uncollAt pr pc t = true := by rw [uncollAt]; exact decide_eq_true hc
      have hmark : collectMark pr pc t = { t with collected := true } :=
        collectMark_of_uncollAt huc
      rw [if_pos hc]
      dsimp only
      obtain ⟨ih1, ih2, ih3⟩ := ih (done ++ [{ t with collected := true }])
      rw [append_singleton_cons] at ih1 ih3
      refine ⟨?_, ?_, ?_⟩
      · rw [ih1, List.map_cons, hmark]
      · rw [ih2, List.filter_cons, huc]
        simp
      · rw [Bool.or_eq_true, ih3, List.map_cons, hmark]
        constructor
        · rintro (hfire | ⟨-, hall⟩)
          · rw [List.all_eq_true] at hfire
            refine ⟨⟨t, List.mem_cons_self t ts, huc⟩, ?_⟩
            intro u hu
            rcases List.mem_append.mp hu with hu | hu
            · exact hfire u (by rw [← append_singleton_cons]; exact List.mem_append_left _ (List.mem_append_left _ hu))
            · rcases List.mem_cons.mp hu with rfl | hu
              · rfl
              · obtain ⟨x, hx, rfl⟩ := List.mem_map.mp hu
                have hxc : x.collected = true :=
                  hfire x (by rw [← append_singleton_cons]; exact List.mem_append_right _ hx)
                rw [collectMark_collected_of hxc]
                exact hxc
          · exact ⟨⟨t, List.mem_cons_self t ts, huc⟩, hall⟩
        · rintro ⟨-, hall⟩
          by_cases hts : ∃ u ∈ ts, uncollAt pr pc u = true
          · exact Or.inr ⟨hts, hall⟩
          · left
            push_neg at hts
            rw [List.all_eq_true]
            intro u hu
            rw [← append_singleton_cons] at hu
            rcases List.mem_append.mp hu with hu | hu
            · rcases List.mem_append.mp hu with hu | hu
              · exact hall u (List.mem_append_left _ hu)
              · rcases List.mem_cons.mp hu with rfl | hu
                · rfl
                · cases hu
            · have hufalse : uncollAt pr pc u = false := by
                cases hval : uncollAt pr pc u with
                | true => exact absurd hval (hts u hu)
                | false => rfl
              have := hall (collectMark pr pc u)
                (List.mem_append_right _ (List.mem_cons_of_mem _ (List.mem_map_of_mem _ hu)))
              rwa [collectMark_id hufalse] at this
    · have huc : uncollAt pr pc t = false := by rw [uncollAt]; exact decide_eq_false hc
      have hmark : collectMark pr pc t = t := collectMark_id huc
      rw [if_neg hc]
      dsimp only
      obtain ⟨ih1, ih2, ih3⟩ := ih (done ++ [t])
      rw [append_singleton_cons] at ih1 ih3
      refine ⟨?_, ?_, ?_⟩
      · rw [ih1, List.map_cons, hmark]
      · rw [ih2, List.filter_cons, huc]
        simp
      · rw [ih3, List.map_cons, hmark]
        constructor
        · rintro ⟨⟨u, hu, hu2⟩, hall⟩
          exact ⟨⟨u, List.mem_cons_of_mem _ hu, hu2⟩, hall⟩
        · rintro ⟨⟨u, hu, hu2⟩, hall⟩
          rcases List.mem_cons.mp hu with rfl | hu
          · rw [huc] at hu2
            cases hu2
          · exact ⟨⟨u, hu, hu2⟩, hall⟩

theorem countCollected_cons (x : Toy) (l : List Toy) :
    countCollected (x :: l) = (if x.collected = true then 1 else 0) + countCollected l := by
  rw [countCollected, List.filter_cons]
  cases h : x.collected <;> simp [h, countCollected, Nat.add_comm]

theorem countCollected_map_mark (pr pc : ℤ) (l : List Toy) :
    countCollected (l.map (collectMark pr pc))
      = countCollected l + (l.filter (uncollAt pr pc)).length := by
  induction l with
  | nil => simp [countCollected]
  | cons a as ih =>
    rw [List.map_cons, countCollected_cons, countCollected_cons, List.filter_cons]
    by_cases ha : uncollAt pr pc a = true
    · have hcoll : a.collected = false := by
        rw [uncollAt, decide_eq_true_eq] at ha
        exact ha.1
      rw [collectMark_of_uncollAt ha, ha]
      simp only [hcoll]
      rw [ih]
      simp
      omega
    · have ha2 : uncollAt pr pc a = false := by
        cases hv : uncollAt pr pc a with
        | true => exact absurd hv ha
        | false => rfl
      rw [collectMark_id ha2, ha2, ih]
      simp
      omega

theorem map_mark_mono (pr pc : ℤ) (l : List Toy) :
    List.Forall₂ (fun a b : Toy => a.row = b.row ∧ a.col = b.col ∧
      (a.collected = true → b.collected = true)) l (l.map (collectMark pr pc)) := by
  induction l with
  | nil => exact List.Forall₂.nil
  | cons a as ih =>
    rw [List.map_cons]
    refine List.Forall₂.cons ?_ ih
    rw [collectMark]
    split
    · exact ⟨rfl, rfl, fun _ => rfl⟩
    · exact ⟨rfl, rfl, fun h => h⟩

theorem endGameFalseN_spec (n : ℕ) (g : GameState) :
    (endGameFalseN n g).running = (if n = 0 then g.running else false) ∧
    (endGameFalseN n g).endLog = g.endLog ++ List.replicate n false ∧
    (endGameFalseN n g).enemies = g.enemies ∧
    (endGameFalseN n g).toys = g.toys ∧
    (endGameFalseN n g).score = g.score ∧
    (endGameFalseN n g).player = g.player ∧
    (endGameFalseN n g).timeLeft = g.timeLeft := by
  induction n generalizing g with
  | zero => simp [endGameFalseN]
  | succ n ih =>
    rw [endGameFalseN]
    obtain ⟨i1, i2, i3, i4, i5, i6, i7⟩ := ih (Game.endGame false g)
    refine ⟨?_, ?_, i3, i4, i5, i6, i7⟩
    · rw [i1]
      simp [Game.endGame]
    · rw [i2]
      simp [Game.endGame, List.replicate_succ]

theorem enemyPass_hits (now : ℤ) (rs : ℕ → ℚ) (player : Player) :
    ∀ (es : List Enemy) (i : ℕ) (res : List Enemy × ℕ),
      enemyPass now rs player i es = some res →
      (0 < res.2 ↔ ∃ e2 ∈ res.1, checkCollision player e2 = true) := by
  intro es
  induction es with
  | nil =>
    intro i res h
    rw [enemyPass] at h
    injection h with h
    subst h
    simp
  | cons e es ih =>
    intro i res h
    rw [enemyPass] at h
    cases hu : Enemy.update now (rs i) e with
    | none => rw [hu] at h; cases h
    | some e1 =>
      rw [hu] at h
      cases hp : enemyPass now rs player (i + 1) es with
      | none => rw [hp] at h; cases h
      | some res2 =>
        obtain ⟨es1, hits⟩ := res2
        rw [hp] at h
        injection h with h
        subst h
        have ihh := ih (i + 1) (es1, hits) hp
        dsimp only at ihh ⊢
        by_cases hc : checkCollision player e1 = true
        · rw [if_pos hc]
          constructor
          · intro _
            exact ⟨e1, List.mem_cons_self e1 es1, hc⟩
          · intro _
            omega
        · rw [if_neg hc]
          constructor
          · intro h0
            obtain ⟨e2, he2, hce⟩ := ihh.mp (by omega)
            exact ⟨e2, List.mem_cons_of_mem _ he2, hce⟩
          · rintro ⟨e2, he2, hce⟩
            rcases List.mem_cons.mp he2 with rfl | he2
            · exact absurd hce hc
            · have := ihh.mpr ⟨e2, he2, hce⟩
              omega

theorem winF_iff (pr pc : ℤ) (toys : List Toy) :
    (collectGo pr pc [] toys).2.2 = true ↔
      ((∃ t ∈ toys, t.collected = false) ∧
        ∀ t ∈ toys, t.collected = false → t.row = pr ∧ t.col = pc) := by
  rw [(collectGo_spec pr pc toys []).2.2]
  simp only [List.nil_append]
  constructor
  · rintro ⟨⟨t, ht, ht2⟩, hall⟩
    have ht3 := ht2
    rw [uncollAt, decide_eq_true_eq] at ht3
    refine ⟨⟨t, ht, ht3.1⟩, ?_⟩
    intro u hu huc
    by_contra hcell
    have hxf : uncollAt pr pc u = false := by
      rw [uncollAt]
      apply decide_eq_false
      rintro ⟨-, h1, h2⟩
      exact hcell ⟨h1, h2⟩
    have hmem : u ∈ toys.map (collectMark pr pc) := by
      have hm2 := List.mem_map_of_mem (collectMark pr pc) hu
      rwa [collectMark_id hxf] at hm2
    have hcu := hall u hmem
    rw [huc] at hcu
    cases hcu
  · rintro ⟨⟨t, ht, htc⟩, hall⟩
    have hcell := hall t ht htc
    refine ⟨⟨t, ht, by rw [uncollAt]; exact decide_eq_true ⟨htc, hcell.1, hcell.2⟩⟩, ?_⟩
    intro u hu
    obtain ⟨x, hx, rfl⟩ := List.mem_map.mp hu
    by_cases hxc : x.collected = true
    · rw [collectMark_collected_of hxc]
      exact hxc
    · have hxf : x.collected = false := by
        cases hv : x.collected with
        | true => exact absurd hv hxc
        | false => rfl
      have hc := hall x hx hxf
      rw [collectMark_of_uncollAt (by rw [uncollAt]; exact decide_eq_true ⟨hxf, hc.1, hc.2⟩)]

/-- C3: a running session leaves the Running state exactly on the specified
events. A frame (`Game.update`) ends the session iff either the last
uncollected toys all sit on the player's (updated) cell — then
`endGame(true)` is called, appending `true` to the overlay log — or an
updated pursuer's bounding box overlaps the player's — then `endGame(false)`
is called, appending `false`; `endGame` always clears the running flag; and
the timer callback ends the session with `endGame(false)` exactly when the
decremented countdown reaches zero. -/
theorem c3_session_transitions :
    (∀ (g g2 : GameState) (now : ℤ) (rs : ℕ → ℚ), g.running = true →
      Game.update now rs g = some g2 →
      ((g2.running = false ↔
        (((∃ t ∈ g.toys, t.collected = false) ∧
           ∀ t ∈ g.toys, t.collected = false →
             t.row = g.player.update.y / TILE_SIZE ∧
             t.col = g.player.update.x / TILE_SIZE) ∨
         ∃ e2 ∈ g2.enemies, checkCollision g.player.update e2 = true)) ∧
       (((∃ t ∈ g.toys, t.collected = false) ∧
           ∀ t ∈ g.toys, t.collected = false →
             t.row = g.player.update.y / TILE_SIZE ∧
             t.col = g.player.update.x / TILE_SIZE) ↔
         true ∈ g2.endLog.drop g.endLog.length) ∧
       ((∃ e2 ∈ g2.enemies, checkCollision g.player.update e2 = true) ↔
         false ∈ g2.endLog.drop g.endLog.length))) ∧
    (∀ (w : Bool) (h : GameState), (Game.endGame w h).running = false) ∧
    (∀ h : GameState, h.running = true →
      ((Game.timerTick h).running = false ↔ h.timeLeft - 1 ≤ 0) ∧
      (h.timeLeft - 1 ≤ 0 →
        false ∈ (Game.timerTick h).endLog.drop h.endLog.length)) := by
  refine ⟨?_, fun w h => rfl, ?_⟩
  · intro g g2 now rs hrun hup
    rw [Game.update] at hup
    cases hep : enemyPass now rs g.player.update 0 g.enemies with
    | none =>
      rw [hep] at hup
      cases hup
    | some res =>
      obtain ⟨es, hits⟩ := res
      rw [hep] at hup
      injection hup with hup
      subst hup
      obtain ⟨hrn, hlog, hens, -, -, -, -⟩ := endGameFalseN_spec hits _
      have hcoll : 0 < hits ↔ ∃ e2 ∈ es, checkCollision g.player.update e2 = true :=
        enemyPass_hits now rs g.player.update g.enemies 0 (es, hits) hep
      have hwin := winF_iff (g.player.update.y / TILE_SIZE)
        (g.player.update.x / TILE_SIZE) g.toys
      rw [hrn, hlog, hens]
      dsimp only
      by_cases hw : (collectGo (g.player.update.y / TILE_SIZE)
          (g.player.update.x / TILE_SIZE) [] g.toys).2.2 = true
      · rw [if_pos hw]
        simp only [Game.endGame]
        have hwev := hwin.mp hw
        rw [List.append_assoc, List.drop_left]
        refine ⟨?_, ?_, ?_⟩
        · exact iff_of_true (by split <;> rfl) (Or.inl hwev)
        · exact iff_of_true hwev (by simp)
        · rw [← hcoll]
          constructor
          · intro h0
            refine List.mem_append_right _ ?_
            exact List.mem_replicate.mpr ⟨by omega, rfl⟩
          · intro hmem
            rcases List.mem_append.mp hmem with hmem | hmem
            · simp at hmem
            · rw [List.mem_replicate] at hmem
              omega
      · rw [if_neg hw]
        dsimp only
        have hwev : ¬((∃ t ∈ g.toys, t.collected = false) ∧
            ∀ t ∈ g.toys, t.collected = false →
              t.row = g.player.update.y / TILE_SIZE ∧
              t.col = g.player.update.x / TILE_SIZE) := fun hc => hw (hwin.mpr hc)
        rw [List.drop_left]
        refine ⟨?_, ?_, ?_⟩
        · constructor
          · intro hr0
            right
            rw [← hcoll]
            by_contra hh
            push_neg at hh
            rw [if_pos (by omega), hrun] at hr0
            cases hr0
          · rintro (hc | hc)
            · exact absurd hc hwev
            · have h0 : 0 < hits := hcoll.mpr hc
              rw [if_neg (by omega : ¬hits = 0)]
        · constructor
          · intro hc
            exact absurd hc hwev
          · intro hmem
            rw [List.mem_replicate] at hmem
            cases hmem.2
        · rw [← hcoll]
          constructor
          · intro h0
            exact List.mem_replicate.mpr ⟨by omega, rfl⟩
          · intro hmem
            rw [List.mem_replicate] at hmem
            omega
  · intro h hr
    constructor
    · rw [Game.timerTick, if_neg (by simp [hr])]
      split
      · rename_i hle
        exact iff_of_true rfl hle
      · rename_i hgt
        exact iff_of_false (by simp [hr]) hgt
    · intro hle
      rw [Game.timerTick, if_neg (by simp [hr]), if_pos hle]
      have hlg : (Game.endGame false { h with timeLeft := h.timeLeft - 1 }).endLog = h.endLog ++ [false] := rfl
      rw [hlg, List.drop_left]
      simp

/-- C3 witness: in the concrete one-toy session, the frame that collects the
last toy ends the session. -/
theorem c3_session_transitions_witness : demoGame2.running = false := by
  have h := (c3_session_transitions.1 demoGame demoGame2 0 (fun _ => 0)
    (by decide) (by decide)).1
  exact h.mpr (Or.inl ⟨⟨mkToy 1 1 ToyType.teddy, by decide, by decide⟩, by decide⟩)

theorem mkToys_uncollected : ∀ (i : ℕ) (cs : List (ℤ × ℤ)), ∀ t ∈ mkToys i cs,
    t.collected = false := by
  intro i cs
  induction cs generalizing i with
  | nil => intro t ht; cases ht
  | cons c cs ih =>
    intro t ht
    rw [mkToys] at ht
    rcases List.mem_cons.mp ht with rfl | ht
    · rfl
    · exact ih (i + 1) t ht

theorem initToys_uncollected (rand : ℕ → ℚ) : ∀ t ∈ initToys rand, t.collected = false :=
  mkToys_uncollected 0 _

theorem countCollected_eq_zero {l : List Toy} (h : ∀ t ∈ l, t.collected = false) :
    countCollected l = 0 := by
  rw [countCollected, List.length_eq_zero, List.filter_eq_nil]
  intro t ht
  simp [h t ht]

theorem timerTick_fields (g : GameState) :
    (Game.timerTick g).toys = g.toys ∧ (Game.timerTick g).score = g.score := by
  rw [Game.timerTick]
  split
  · exact ⟨rfl, rfl⟩
  · split <;> exact ⟨rfl, rfl⟩

theorem game_update_toys_score {g g2 : GameState} {now : ℤ} {rs : ℕ → ℚ}
    (h : Game.update now rs g = some g2) :
    g2.toys = g.toys.map (collectMark (g.player.update.y / TILE_SIZE)
      (g.player.update.x / TILE_SIZE)) ∧
    g2.score = g.score + ((g.toys.filter (uncollAt (g.player.update.y / TILE_SIZE)
      (g.player.update.x / TILE_SIZE))).length : ℤ) := by
  rw [Game.update] at h
  cases hep : enemyPass now rs g.player.update 0 g.enemies with
  | none =>
    rw [hep] at h
    cases h
  | some res =>
    obtain ⟨es, hits⟩ := res
    rw [hep] at h
    injection h with h
    subst h
    obtain ⟨-, -, -, htys, hsc, -, -⟩ := endGameFalseN_spec hits _
    obtain ⟨c1, c2, -⟩ := collectGo_spec (g.player.update.y / TILE_SIZE)
      (g.player.update.x / TILE_SIZE) g.toys []
    rw [List.nil_append] at c1
    rw [htys, hsc]
    constructor
    · split <;> exact c1
    · have hshow : g.score + ((collectGo (g.player.update.y / TILE_SIZE) (g.player.update.x / TILE_SIZE) [] g.toys).2.1 : ℤ) = g.score + ((g.toys.filter (uncollAt (g.player.update.y / TILE_SIZE) (g.player.update.x / TILE_SIZE))).length : ℤ) := by
        rw [c2]
      split
      · exact hshow
      · exact hshow

attribute [irreducible] initToys

theorem score_inv {g : GameState} (hg : GameReach g) :
    g.score = (countCollected g.toys : ℤ) := by
  induction hg with
  | init now rand hrand =>
    show (0 : ℤ) = _
    rw [show (gameInit now rand).toys = initToys rand from rfl,
      countCollected_eq_zero (initToys_uncollected rand)]
    rfl
  | frame now rs hrs hr hup ih =>
    obtain ⟨ht, hs⟩ := game_update_toys_score hup
    rw [hs, ht, ih, countCollected_map_mark]
    push_cast
    ring
  | tick hr ih =>
    rw [(timerTick_fields _).1, (timerTick_fields _).2]
    exact ih
  | key k hr ih => exact ih

/-- C7: in every reachable session state the score equals the number of
collected toys; a frame changes toy rows/columns never, flips `collected`
only from false to true, and raises the score by exactly the number of
newly collected toys; timer ticks and keydowns leave the toys unchanged. -/
theorem c7_score_equals_collected {g : GameState} (hg : GameReach g) :
    g.score = (countCollected g.toys : ℤ) ∧
    (∀ (now : ℤ) (rs : ℕ → ℚ) (g2 : GameState), Game.update now rs g = some g2 →
      List.Forall₂ (fun a b : Toy => a.row = b.row ∧ a.col = b.col ∧
        (a.collected = true → b.collected = true)) g.toys g2.toys ∧
      g2.score = g.score + ((countCollected g2.toys : ℤ) - (countCollected g.toys : ℤ))) ∧
    (Game.timerTick g).toys = g.toys ∧
    (∀ k : String, ({ g with player := handleKeydown k g.player }).toys = g.toys) := by
  refine ⟨score_inv hg, ?_, (timerTick_fields g).1, fun k => rfl⟩
  intro now rs g2 hup
  obtain ⟨ht, hs⟩ := game_update_toys_score hup
  constructor
  · rw [ht]
    exact map_mark_mono _ _ _
  · rw [hs, ht, countCollected_map_mark]
    push_cast
    ring

/-- C7 witness: a freshly initialized session is reachable and its score 0
matches its zero collected toys. -/
theorem c7_score_equals_collected_witness :
    (gameInit 0 (fun _ => 0)).score = (countCollected (gameInit 0 (fun _ => 0)).toys : ℤ) :=
  (c7_score_equals_collected (GameReach.init 0 (fun _ => 0)
    (fun _ => ⟨le_refl 0, by norm_num⟩))).1

/-! ### Shuffle lemmas and C9 -/

theorem count_set {α : Type} [DecidableEq α] (a b : α) :
    ∀ (l : List α) (n : ℕ) (hn : n < l.length),
      (l.set n b).count a + (if l[n] == a then 1 else 0)
        = l.count a + (if b == a then 1 else 0) := by
  intro l
  induction l with
  | nil =>
    intro n h
    simp at h
  | cons c t ih =>
    intro n h
    cases n with
    | zero =>
      show (b :: t).count a + _ = _
      rw [List.count_cons, List.count_cons]
      rw [show (c :: t)[0] = c from rfl]
      split_ifs <;> omega
    | succ n =>
      have hn : n < t.length := by simpa using h
      show (c :: t.set n b).count a + _ = _
      rw [List.count_cons, List.count_cons]
      rw [show (c :: t)[n + 1] = t[n] from rfl]
      have hih := ih n hn
      split_ifs at hih ⊢ <;> omega

theorem listSwap_perm {α : Type} [DecidableEq α] (dflt : α) (l : List α) (i j : ℕ)
    (hi : i < l.length) (hj : j < l.length) : List.Perm (listSwap dflt l i j) l := by
  rw [List.perm_iff_count]
  intro a
  rw [listSwap, List.getD_eq_getElem l dflt hj, List.getD_eq_getElem l dflt hi]
  by_cases hij : i = j
  · subst hij
    rw [List.set_set]
    have h1 := count_set a (l[i]) l i hi
    split_ifs at h1 <;> omega
  · have h1 := count_set a (l[j]) l i hi
    have h2 := count_set a (l[i]) (l.set i (l[j])) j (by simpa using hj)
    rw [List.getElem_set_of_ne hij] at h2
    split_ifs at h1 h2 <;> omega

theorem fyGo_perm (rand : ℕ → ℚ) (hrand : ∀ i, 0 ≤ rand i ∧ rand i < 1)
    {α : Type} [DecidableEq α] (dflt : α) :
    ∀ (k : ℕ) (l : List α), k < l.length → List.Perm (fyGo rand dflt k l) l := by
  intro k
  induction k with
  | zero =>
    intro l h
    rw [fyGo]
  | succ k ih =>
    intro l h
    rw [fyGo]
    have hb := hrand (k + 1)
    have hfl : ⌊rand (k + 1) * ((k : ℚ) + 2)⌋ < ((k : ℤ) + 2) := by
      rw [Int.floor_lt]
      push_cast
      calc rand (k + 1) * ((k : ℚ) + 2) < 1 * ((k : ℚ) + 2) := by
            apply mul_lt_mul_of_pos_right hb.2
            positivity
        _ = (k : ℚ) + 2 := one_mul _
    have hjlt : (⌊rand (k + 1) * ((k : ℚ) + 2)⌋).toNat < l.length := by omega
    have hperm := listSwap_perm dflt l (k + 1) (⌊rand (k + 1) * ((k : ℚ) + 2)⌋).toNat h hjlt
    have hlen : (listSwap dflt l (k + 1) (⌊rand (k + 1) * ((k : ℚ) + 2)⌋).toNat).length
        = l.length := by
      rw [listSwap]
      simp
    exact (ih _ (by rw [hlen]; omega)).trans hperm

theorem mkToys_length : ∀ (i : ℕ) (cs : List (ℤ × ℤ)), (mkToys i cs).length = cs.length := by
  intro i cs
  induction cs generalizing i with
  | nil => rfl
  | cons c cs ih =>
    rw [mkToys, List.length_cons, List.length_cons, ih (i + 1)]

theorem mkToys_cells : ∀ (i : ℕ) (cs : List (ℤ × ℤ)),
    (mkToys i cs).map (fun t => (t.row, t.col)) = cs := by
  intro i cs
  induction cs generalizing i with
  | nil => rfl
  | cons c cs ih =>
    rw [mkToys, List.map_cons, ih (i + 1)]
    rfl

/-- C9: for any run of `Game.init` (any sequence of shuffle randoms in
[0,1)), exactly min(10, number of non-start walkable cells) toys are
created, their cells are pairwise distinct walkable cells different from the
player start (1,1), and all start uncollected. -/
theorem c9_init_toys (rand : ℕ → ℚ) (hrand : ∀ i, 0 ≤ rand i ∧ rand i < 1) :
    (initToys rand).length = min 10 emptyCells.length ∧
    ((initToys rand).map (fun t => (t.row, t.col))).Nodup ∧
    (∀ t ∈ initToys rand, isWall t.row t.col = false ∧ ¬(t.row = 1 ∧ t.col = 1) ∧
      t.collected = false) := by
  have hperm : List.Perm (shuffledCells rand) emptyCells := by
    rw [shuffledCells]
    exact fyGo_perm rand hrand (0, 0) (emptyCells.length - 1) emptyCells (by decide)
  have hlen : (shuffledCells rand).length = emptyCells.length := hperm.length_eq
  have hnodup : (shuffledCells rand).Nodup := (List.Perm.nodup_iff hperm).mpr (by decide)
  rw [initToys]
  refine ⟨?_, ?_, ?_⟩
  · rw [mkToys_length, List.length_take, hlen]
    omega
  · rw [mkToys_cells]
    exact List.Nodup.sublist (List.take_sublist _ _) hnodup
  · intro t ht
    have hcellmem : (t.row, t.col) ∈ shuffledCells rand := by
      have h1 := List.mem_map_of_mem (fun t : Toy => (t.row, t.col)) ht
      rw [mkToys_cells] at h1
      exact List.mem_of_mem_take h1
    have hmem2 : (t.row, t.col) ∈ emptyCells := hperm.mem_iff.mp hcellmem
    have hprop : ∀ x ∈ emptyCells, isWall x.1 x.2 = false ∧ ¬(x.1 = 1 ∧ x.2 = 1) := by decide
    obtain ⟨hw, hc⟩ := hprop _ hmem2
    exact ⟨hw, hc, mkToys_uncollected _ _ t ht⟩

/-- C9 witness: the all-zero random stream is a valid shuffle input. -/
theorem c9_init_toys_witness :
    (initToys (fun _ => 0)).length = min 10 emptyCells.length ∧
    ((initToys (fun _ => 0)).map (fun t => (t.row, t.col))).Nodup ∧
    (∀ t ∈ initToys (fun _ => 0), isWall t.row t.col = false ∧
      ¬(t.row = 1 ∧ t.col = 1) ∧ t.collected = false) :=
  c9_init_toys (fun _ => 0) (fun _ => ⟨le_refl 0, by norm_num⟩)
